import Mathlib

/- Verification development for the federated multi-task aggregation engine.

   The TypeScript source is shallowly embedded: tensors are modelled by their
   (shape, flattened-contents) pairs over exact real/rational arithmetic,
   `Float64Array` vectors become `List` over a linear ordered field, and the
   stateful aggregation/server code becomes explicit state passing.  Fallible
   lookups are modelled with `Option`.  Each embedded definition carries a
   comment pointing at the source function it translates. -/

namespace FedAgg

/-! ### Definitions -/

section SimplexDefs

variable {α : Type} [LinearOrderedField α]

/-- Decidability of the descending comparison used by the sort below. -/
instance decRelDesc : DecidableRel (fun a b : α => b ≤ a) :=
  fun a b => inferInstanceAs (Decidable (b ≤ a))

instance totalRelDesc : IsTotal α (fun a b : α => b ≤ a) :=
  ⟨fun a b => le_total b a⟩

instance transRelDesc : IsTrans α (fun a b : α => b ≤ a) :=
  ⟨fun _ _ _ hab hbc => le_trans hbc hab⟩

/-- Descending sort: models `Array.from(v).sort((a, b) => b - a)` in
    `projectToSimplex` (utils, conflict-averse section). -/
def sortDesc (v : List α) : List α := List.insertionSort (fun a b => b ≤ a) v

/-- The scan loop of `projectToSimplex`: walks the sorted vector `u`
    accumulating the running sum `cssv`; whenever `u[i] - (cssv - 1)/(i+1) > 0`
    the register `rho` is overwritten with `i`.  `rho` starts at `-1`. -/
def rhoLoop : List α → α → ℕ → ℤ → ℤ
  | [], _, _, r => r
  | x :: rest, cssv, i, r =>
    let cssv' := cssv + x
    rhoLoop rest cssv' (i + 1) (if 0 < x - (cssv' - 1) / ((i : α) + 1) then (i : ℤ) else r)

/-- The threshold `theta = (sum(u[0..rho]) - 1) / (rho + 1)` computed by
    `projectToSimplex` after the scan loop. -/
def thetaOf (v : List α) : α :=
  (((sortDesc v).take ((rhoLoop (sortDesc v) 0 0 (-1)) + 1).toNat).sum - 1) /
    (((rhoLoop (sortDesc v) 0 0 (-1) : ℤ) : α) + 1)

/-- Model of `projectToSimplex(v)` (utils): Euclidean projection onto the
    probability simplex via sort-and-threshold; the output is
    `w[i] = max(v[i] - theta, 0)` componentwise. -/
def projectToSimplex (v : List α) : List α :=
  v.map (fun x => max (x - thetaOf v) 0)

/-- The branch test of the scan loop, phrased against the whole sorted list:
    at index `j` the loop compares `u[j] - (sum(u[0..j]) - 1)/(j+1)` with 0. -/
def condIdx (u : List α) (j : ℕ) : Prop :=
  0 < u.getD j 0 - ((u.take (j + 1)).sum - 1) / ((j : α) + 1)

/-- Squared Euclidean distance of two vectors (componentwise, truncating). -/
def sqDist (a b : List α) : α := (List.zipWith (fun x y => (x - y) ^ 2) a b).sum

/-- Membership of a vector in the probability simplex. -/
def onSimplex (w : List α) : Prop := (∀ x ∈ w, 0 ≤ x) ∧ w.sum = 1

end SimplexDefs

/-- Model of `export const EPS = 1e-8` (utils). -/
def EPS : ℝ := 1e-8

/-- Model of `matVec(A, x)` (utils): row-by-row dot products.  The source
    iterates `j < A.length` assuming a square matrix and `x` of matching
    length; `zipWith` agrees with it on all such inputs. -/
def matVec (A : List (List ℝ)) (x : List ℝ) : List ℝ :=
  A.map (fun row => (List.zipWith (fun a b => a * b) row x).sum)

/-- Model of `dotArr(a, b)` (utils). -/
def dotArr (a b : List ℝ) : ℝ := (List.zipWith (fun x y => x * y) a b).sum

/-- Model of `quadForm(A, x) = xᵀ A x` (utils). -/
def quadForm (A : List (List ℝ)) (x : List ℝ) : ℝ := dotArr x (matVec A x)

/-- Model of `objCA(A, b, c, x) = ⟨x, Ab⟩ + c·sqrt(xᵀAx + EPS)` (utils). -/
noncomputable def objCA (A : List (List ℝ)) (b : List ℝ) (c : ℝ) (x : List ℝ) : ℝ :=
  dotArr x (matVec A b) + c * Real.sqrt (quadForm A x + EPS)

/-- Model of `gradCA(A, b, c, x)` (utils): `g[i] = Ab[i] + c·Ax[i]/sqrt(xᵀAx+EPS)`
    for `i < x.length`.  The source indexes `Ab`/`Ax` by `i < x.length`; in
    every reachable call `x.length = A.length`, so `getD` never defaults. -/
noncomputable def gradCA (A : List (List ℝ)) (b : List ℝ) (c : ℝ) (x : List ℝ) : List ℝ :=
  (List.range x.length).map
    (fun i => (matVec A b).getD i 0 + c * ((matVec A x).getD i 0) / Real.sqrt (quadForm A x + EPS))

/-- Loop state of `solveSimplexProjectedGD`: current iterate, cached objective
    value and step size. -/
structure GDState where
  x : List ℝ
  fx : ℝ
  step : ℝ

/-- The candidate iterate `xNew = projectToSimplex(x - step*g)` computed at
    the top of each loop iteration of `solveSimplexProjectedGD`. -/
noncomputable def gdCandidate (A : List (List ℝ)) (c : ℝ) (s : GDState) : List ℝ :=
  projectToSimplex (List.zipWith (fun xi gi => xi - s.step * gi) s.x (gradCA A s.x c s.x))

/-- One-iteration-per-fuel model of the loop of `solveSimplexProjectedGD`.
    In the source `const b = x` aliases the mutable `Float64Array` that is
    later overwritten in place by `x.set(xNew)`, so the objective and gradient
    always read the current iterate for `b`; the embedding therefore passes
    `s.x` for `b`.  On a rejected step (`fNew > fx + 1e-12`) the size is
    halved and the loop breaks (returning the unchanged iterate) once it falls
    below `1e-12`; on an accepted step the iterate advances, the step grows by
    1.05 (capped at 1), and the loop breaks on L1 convergence below `tol`. -/
noncomputable def gdIter (A : List (List ℝ)) (c tol : ℝ) : ℕ → GDState → List ℝ
  | 0, s => s.x
  | it + 1, s =>
    if s.fx + 1e-12 < objCA A s.x c (gdCandidate A c s) then
      (if s.step * 0.5 < 1e-12 then s.x
       else gdIter A c tol it ⟨s.x, s.fx, s.step * 0.5⟩)
    else
      (if (List.zipWith (fun a b => |a - b|) (gdCandidate A c s) s.x).sum < tol then
        gdCandidate A c s
       else gdIter A c tol it
        ⟨gdCandidate A c s, objCA A s.x c (gdCandidate A c s), min (s.step * 1.05) 1⟩)

/-- Model of `solveSimplexProjectedGD(A, c, maxIters = 500, tol = 1e-9)`
    (utils): projected gradient descent started from the uniform vector. -/
noncomputable def solveSimplexProjectedGD (A : List (List ℝ)) (c : ℝ)
    (maxIters : ℕ) (tol : ℝ) : List ℝ :=
  gdIter A c tol maxIters
    ⟨List.replicate A.length (1 / (A.length : ℝ)),
     objCA A (List.replicate A.length (1 / (A.length : ℝ))) c
       (List.replicate A.length (1 / (A.length : ℝ))),
     0.1⟩

/-- Guard of `canonicalKey`: the key ends in `_` followed by one or more
    digits (the only way the anchored regex `/_\d+$/` can match). -/
def hasNumSuffix (l : List Char) : Bool :=
  decide (l.reverse.takeWhile Char.isDigit ≠ []) &&
    ((l.reverse.drop (l.reverse.takeWhile Char.isDigit).length).head? == some '_')

/-- Suffix stripping on character lists: removes the maximal trailing digit
    run together with the underscore right before it, when present. -/
def stripNumSuffix (l : List Char) : List Char :=
  if hasNumSuffix l then
    (l.reverse.drop ((l.reverse.takeWhile Char.isDigit).length + 1)).reverse
  else l

/-- Model of `canonicalKey(k) = k.replace(/_\d+$/, "")` (utils): the anchored
    regex matches at most once, at the last underscore that is followed only
    by digits, and the match is deleted. -/
def canonicalKey (k : String) : String := String.mk (stripNumSuffix k.data)

/-- Tensor model: a shape together with the flattened (row-major) contents.
    Well-formedness (`data.length = shape.prod`) is carried as a hypothesis
    where a claim needs it, matching what tfjs guarantees by construction. -/
@[ext]
structure Tensor where
  shape : List ℕ
  data : List ℝ

/-- WeightMap model (`Record<string, tf.Tensor>`): an insertion-ordered
    string-keyed dictionary. -/
abbrev WeightMap := List (String × Tensor)

/-- JS object write `out[k] = v`: replace the entry if the key is present,
    append otherwise. -/
def wmSet (m : WeightMap) (k : String) (v : Tensor) : WeightMap :=
  match m with
  | [] => [(k, v)]
  | (k', v') :: rest => if k' = k then (k, v) :: rest else (k', v') :: wmSet rest k v

/-- Model of `flatten(dict, keys)` (utils): concatenation of the flattened
    tensors `dict[k]` in key order; a missing key is a lookup failure (the
    source would fault on `undefined`). -/
def flatten (m : WeightMap) : List String → Option (List ℝ)
  | [] => some []
  | k :: ks =>
    match List.lookup k m, flatten m ks with
    | some t, some rest => some (t.data ++ rest)
    | _, _ => none

/-- Model of `unflatten(vec, keys, shapes)` (utils): walk the key list,
    slicing `prod(shape)` entries per key and reshaping; writes follow JS
    object semantics (a later duplicate key overwrites an earlier one). -/
def unflattenAux : List ℝ → List String → List (List ℕ) → WeightMap → WeightMap
  | _, [], _, out => out
  | _, _ :: _, [], out => out
  | vec, k :: ks, s :: ss, out =>
    unflattenAux (vec.drop s.prod) ks ss (wmSet out k ⟨s, vec.take s.prod⟩)

/-- Top-level `unflatten`, starting from the empty object. -/
def unflatten (vec : List ℝ) (keys : List String) (shapes : List (List ℕ)) : WeightMap :=
  unflattenAux vec keys shapes []

/-- Key/shape compatibility with a map `m`: the key is present in `m`, with
    the stated shape, and its tensor is well-formed. -/
def keyShapeOk (m : WeightMap) (k : String) (s : List ℕ) : Prop :=
  ∃ t, List.lookup k m = some t ∧ t.shape = s ∧ t.data.length = s.prod

/-- Elementwise vector sum (`tf.add` / one step of `tf.addN`). -/
def addVec (a b : List ℝ) : List ℝ := List.zipWith (fun x y => x + y) a b

/-- Scalar multiple of a vector (`tensor.mul(c)` / `div`). -/
def scale (c : ℝ) (v : List ℝ) : List ℝ := v.map (fun x => c * x)

/-- Model of `tf.addN` on a nonempty list of equal-length vectors. -/
def sumVecs : List (List ℝ) → List ℝ
  | [] => []
  | v :: vs => vs.foldl addVec v

/-- Gram matrix `GG = gradsᵀ·grads` of `getCaDelta`: the deltas are the
    columns of `grads`, so entry (i, j) is `⟨delta_i, delta_j⟩`. -/
def gramOf (ds : List (List ℝ)) : List (List ℝ) :=
  ds.map (fun di => ds.map (fun dj => dotArr di dj))

/-- Model of `g0Norm = sqrt(GG.mean() + EPS)` in `getCaDelta`: the mean runs
    over all `N*N` entries of the Gram matrix. -/
noncomputable def g0NormOf (ds : List (List ℝ)) : ℝ :=
  Real.sqrt (((gramOf ds).map List.sum).sum / ((ds.length * ds.length : ℕ) : ℝ) + EPS)

/-- The solver coefficient `c = alpha * g0Norm + EPS` of `getCaDelta`. -/
noncomputable def caCoeff (ds : List (List ℝ)) (alpha : ℝ) : ℝ :=
  alpha * g0NormOf ds + EPS

/-- Elementwise mean across client vectors (`grads.mean(1)`). -/
noncomputable def meanVecs (vs : List (List ℝ)) : List ℝ :=
  scale (1 / (vs.length : ℝ)) (sumVecs vs)

/-- Model of `gw = grads.mul(ww.reshape([1,N])).sum(1)` in `getCaDelta`: the
    weighted sum of the delta columns under the simplex weights returned by
    `solveSimplexProjectedGD(GG, c)` (with its default budget and tolerance). -/
noncomputable def gwOf (ds : List (List ℝ)) (c : ℝ) : List ℝ :=
  (List.zipWith scale (solveSimplexProjectedGD (gramOf ds) c 500 (1e-9)) ds).foldl addVec
    (List.replicate (ds.headD []).length 0)

/-- Model of `getCaDelta(flattenDeltaList, alpha)` (aggregate): with
    `c = alpha*g0Norm + EPS` and `lambda = c/(‖gw‖ + EPS)`, the result is
    `(mean(grads) + lambda*gw) / (1 + alpha²)`. -/
noncomputable def getCaDelta (ds : List (List ℝ)) (alpha : ℝ) : List ℝ :=
  scale (1 / (1 + alpha * alpha))
    (addVec (meanVecs ds)
      (scale (caCoeff ds alpha /
          (Real.sqrt (dotArr (gwOf ds (caCoeff ds alpha)) (gwOf ds (caCoeff ds alpha))) + EPS))
        (gwOf ds (caCoeff ds alpha))))

/-- Task names of the model (src/models/state.ts `TaskName`): a closed
    five-value string enum. -/
inductive TaskName
  | semseg
  | edge
  | saliency
  | depth
  | normal
deriving DecidableEq, Fintype

/-- Character-level rendering of a task name, as consumed by
    `tasks.join("|")` in the grouping comparison. -/
def TaskName.chars : TaskName → List Char
  | .semseg => ['s', 'e', 'm', 's', 'e', 'g']
  | .edge => ['e', 'd', 'g', 'e']
  | .saliency => ['s', 'a', 'l', 'i', 'e', 'n', 'c', 'y']
  | .depth => ['d', 'e', 'p', 't', 'h']
  | .normal => ['n', 'o', 'r', 'm', 'a', 'l']

/-- Client model for grouping: dataset name and ordered enabled-task list
    (`FederatedClient.dataname` / `.tasks`). -/
structure Client where
  dataname : String
  tasks : List TaskName
deriving DecidableEq

/-- The join `tasks.join("|")` used by the grouping comparison. -/
def joinTasks (c : Client) : List Char :=
  List.intercalate ['|'] (c.tasks.map TaskName.chars)

/-- The adjacency test of `homoAverageEncoderDeltasInPlace`:
    `clients[end].dataname === clients[end-1].dataname &&
     clients[end].tasks.join("|") === clients[end-1].tasks.join("|")`. -/
def sameSigJoin (a b : Client) : Prop :=
  a.dataname = b.dataname ∧ joinTasks a = joinTasks b

instance (a b : Client) : Decidable (sameSigJoin a b) :=
  inferInstanceAs (Decidable (_ ∧ _))

/-- Length of the maximal chain of clients adjacent to the head that match
    the previous client's signature (the inner `while` advancing `end`). -/
def runLen : Client → List Client → ℕ
  | _, [] => 0
  | c, d :: ds => if sameSigJoin d c then 1 + runLen d ds else 0

/-- Model of `homoAverageEncoderDeltasInPlace(deltas, clients)` (aggregate):
    partitions the clients into maximal runs of adjacent equal signatures and
    replaces each run's deltas by the run's elementwise mean (`addN ... .div`).
    The source mutates the array in place; the model returns the new list. -/
noncomputable def homoAverageEncoderDeltasInPlace : List (List ℝ) → List Client → List (List ℝ)
  | ds, [] => ds
  | ds, c :: cs =>
    List.replicate (1 + runLen c cs)
        (scale (1 / ((1 + runLen c cs : ℕ) : ℝ)) (sumVecs (ds.take (1 + runLen c cs)))) ++
      homoAverageEncoderDeltasInPlace (ds.drop (1 + runLen c cs)) (cs.drop (runLen c cs))
termination_by _ds cs => cs.length
decreasing_by
  simp only [List.length_drop, List.length_cons]
  omega

/-- Elementwise vector difference (`a.sub(b)`). -/
def subVec (a b : List ℝ) : List ℝ := List.zipWith (fun x y => x - y) a b

/-- Character-level model of `String.startsWith` (equivalent; the byte-level
    positions of the builtin are opaque to kernel reduction). -/
def strStartsWith (s p : String) : Bool := p.data.isPrefixOf s.data

/-- Model of `getEncoderKeys(allKeys)` (utils): keys with the shared encoder
    name prior to sorting, then `.sort()` (ascending lexicographic). -/
def getEncoderKeys (allKeys : List String) : List String :=
  List.insertionSort (fun a b => a ≤ b)
    (allKeys.filter (fun k => strStartsWith k "encoder_stage"))

/-- Model of `deltaDict(cur, last, keys)` (utils): per-key difference
    `cur[k] - last[k]`; a key missing from either map is a fault in the
    source, modelled as `none`.  Applying it after `pick` on the same key
    list is the identity on lookups, so the composite in diagnostics and
    aggregate is `deltaDict` on the original maps. -/
def deltaDict (cur last : WeightMap) : List String → Option WeightMap
  | [] => some []
  | k :: ks =>
    match List.lookup k cur, List.lookup k last, deltaDict cur last ks with
    | some tc, some tl, some rest =>
        some ((k, ⟨tc.shape, List.zipWith (fun a b => a - b) tc.data tl.data⟩) :: rest)
    | _, _, _ => none

/-- Cosine with the additive EPS guards of diagnostics:
    `dot / ((‖a‖+EPS)·(‖b‖+EPS))`. -/
noncomputable def cosine (a b : List ℝ) : ℝ :=
  dotArr a b / ((Real.sqrt (dotArr a a) + EPS) * (Real.sqrt (dotArr b b) + EPS))

/-- Values of `f` over all unordered pairs i < j, in the double-loop order of
    the diagnostics source. -/
noncomputable def pairwiseVals (f : List ℝ → List ℝ → ℝ) : List (List ℝ) → List ℝ
  | [] => []
  | v :: vs => vs.map (f v) ++ pairwiseVals f vs

/-- The diagnostics record (src/federated/diagnostics.ts `InterClientDiag`). -/
structure InterClientDiag where
  meanDeltaNorm : ℝ
  meanClientDeltaNorm : ℝ
  meanDistToMean : ℝ
  meanCosine : ℝ
  fracNegativeCosine : ℝ

/-- Model of `computeInterClientDiagnostics(clients, saveCkpt, lastCkpt)`
    (diagnostics): fewer than 2 clients short-circuits to the degenerate
    record before touching any checkpoint; otherwise the per-client encoder
    deltas are flattened (any missing index or key faults, `none`) and the
    divergence/conflict statistics are computed. -/
noncomputable def computeInterClientDiagnostics (clients : List Client)
    (saveCkpt lastCkpt : List WeightMap) : Option InterClientDiag :=
  if clients.length < 2 then
    some ⟨0, 0, 0, 1, 0⟩
  else
    match saveCkpt.head? with
    | none => none
    | some m0 =>
      let encKeys := getEncoderKeys (m0.map Prod.fst)
      match (List.range clients.length).mapM
          (fun i => (saveCkpt.get? i).bind (fun ci => (lastCkpt.get? i).bind (fun li =>
            (deltaDict ci li encKeys).bind (fun d => flatten d encKeys)))) with
      | none => none
      | some deltas =>
        let N : ℝ := (clients.length : ℝ)
        let meanDelta := scale (1 / N) (sumVecs deltas)
        let cosines := pairwiseVals cosine deltas
        let pairs := cosines.length
        some
          { meanDeltaNorm := Real.sqrt (dotArr meanDelta meanDelta)
            meanClientDeltaNorm := (deltas.map (fun v => Real.sqrt (dotArr v v))).sum / N
            meanDistToMean :=
              (deltas.map
                (fun v => Real.sqrt (dotArr (subVec v meanDelta) (subVec v meanDelta)))).sum / N
            meanCosine := if 0 < pairs then cosines.sum / (pairs : ℝ) else 1
            fracNegativeCosine :=
              if 0 < pairs then ((cosines.filter (fun c => c < 0)).length : ℝ) / (pairs : ℝ)
              else 0 }

/-- String rendering of a task name (the TS string literals). -/
def TaskName.str : TaskName → String
  | .semseg => "semseg"
  | .edge => "edge"
  | .saliency => "saliency"
  | .depth => "depth"
  | .normal => "normal"

/-- Model of `getDecoderKeysForTask(allKeys, task)` (utils): keys starting
    with the task's decoder name, sorted ascending. -/
def getDecoderKeysForTask (allKeys : List String) (task : TaskName) : List String :=
  List.insertionSort (fun a b => a ≤ b)
    (allKeys.filter (fun k => strStartsWith k (task.str ++ "_decoder_")))

/-- Model of `toRelativeDecoderKey(fullKey, task)` (utils).  The source
    throws on keys lacking the task's decoder name; every call site filters
    with `getDecoderKeysForTask` first, so the guard never fires and the
    embedding keeps the total stripping part. -/
def toRelativeDecoderKey (fullKey : String) (task : TaskName) : String :=
  "decoder/" ++ fullKey.drop (task.str ++ "_decoder_").length

/-- Model of `fromRelativeDecoderKey(relKey, task)` (utils); the source's
    guard on the `decoder/` name never fires at its call sites (the inputs
    are outputs of `toRelativeDecoderKey`). -/
def fromRelativeDecoderKey (relKey : String) (task : TaskName) : String :=
  task.str ++ "_decoder_" ++ relKey.drop ("decoder/".length)

/-- A client's live tfjs model, reduced to what checkpoint I/O observes:
    the ordered weight names (`model.weights`) and values (`getWeights`). -/
structure LiveModel where
  names : List String
  vals : List Tensor

/-- Model of `loadCheckpoint(model, ckpt)` (utils): for each weight, take the
    checkpoint tensor under the weight's canonical name if present, else keep
    the current value; then `setWeights` the assembled list. -/
def loadCheckpoint (m : LiveModel) (ckpt : WeightMap) : LiveModel :=
  { names := m.names
    vals := List.zipWith
      (fun nm cur => (List.lookup (canonicalKey nm) ckpt).getD cur) m.names m.vals }

/-- Encoder policy interface: aggregate only ever calls
    `hyperweight.enc.forward(flattenLast, flattenDelta, globalDelta)`, so the
    policy is its forward function. -/
structure EncPolicy where
  forward : List (List ℝ) → List (List ℝ) → List ℝ → List (List ℝ)

/-- Decoder policy interface:
    `hyperweight.dec.forward(lastBlocks, deltaBlocks, {taskOfBlock,
    clientOfBlock, relKeys})`. -/
structure DecPolicy where
  forward : List WeightMap → List WeightMap → List TaskName → List ℕ → List String →
    List WeightMap

/-- Encoder cache written by `aggregate` and consumed by the next round's
    `updateHyperweight` (hyperweight.ts `EncCache`). -/
structure EncCache where
  encKeys : List String
  encShapes : List (List ℕ)
  lastEnc : List (List ℝ)
  localDelta : List (List ℝ)
  globalDelta : List ℝ

/-- Decoder cache (hyperweight.ts `DecCache`). -/
structure DecCache where
  relKeys : List String
  taskOfBlock : List TaskName
  clientOfBlock : List ℕ
  lastBlocks : List WeightMap
  deltaBlocks : List WeightMap

/-- The Hyperweight record: optional policies plus the `_cache` slots. -/
structure Hyperweight where
  enc : Option EncPolicy
  dec : Option DecPolicy
  encCache : Option EncCache
  decCache : Option DecCache

/-- Encoder aggregation strategies (aggregate.ts `EncoderAgg`). -/
inductive EncoderAgg
  | none
  | fedavg
  | conflict_averse
deriving DecidableEq

/-- Decoder aggregation strategies (aggregate.ts `DecoderAgg`). -/
inductive DecoderAgg
  | none
  | fedavg
  | cross_attention
deriving DecidableEq

/-- A federated client as `aggregate` sees it: grouping signature plus the
    live model written back at the end of the round. -/
structure FederatedClient where
  dataname : String
  tasks : List TaskName
  model : LiveModel

/-- The grouping view of a client (its `dataname`/`tasks` pair). -/
def FederatedClient.toClient (c : FederatedClient) : Client := ⟨c.dataname, c.tasks⟩

/-- Mean of a list of same-shape tensors (`tf.stack(..).mean(0)`); the shape
    is the common one.  A missing key would fault in the source, so callers
    guard with `mapsHaveKeys` before building the inputs. -/
noncomputable def meanTensors (ts : List Tensor) : Tensor :=
  ⟨(ts.headD ⟨[], []⟩).shape, scale (1 / (ts.length : ℝ)) (sumVecs (ts.map Tensor.data))⟩

/-- Model of `meanSoup(dicts, keys)` (utils): per key, the elementwise mean
    across the dictionaries.  (`aggregate` applies it to `pick`-ed sub-maps;
    picking does not change the lookups, so the original maps are passed.) -/
noncomputable def meanSoup (dicts : List WeightMap) (keys : List String) : WeightMap :=
  keys.map (fun k => (k, meanTensors (dicts.map (fun d => (List.lookup k d).getD ⟨[], []⟩))))

/-- Sequential JS object writes `out[k] = v` for each pair. -/
def wmSetMany (m : WeightMap) (kvs : WeightMap) : WeightMap :=
  kvs.foldl (fun acc kv => wmSet acc kv.1 kv.2) m

/-- Writes applied to the staged maps of the first `n` clients only (the
    `for (let i = 0; i < N; i++)` write loops of `aggregate`). -/
def writeToFirst (n : ℕ) (kvs : WeightMap) (staged : List WeightMap) : List WeightMap :=
  (staged.take n).map (fun u => wmSetMany u kvs) ++ staged.drop n

/-- Guard: every map holds every key (otherwise the source faults on
    `undefined` inside `pick`/`deltaDict`/`meanSoup`). -/
def mapsHaveKeys (ms : List WeightMap) (keys : List String) : Bool :=
  ms.all (fun m => keys.all (fun k => (List.lookup k m).isSome))

/-- Flattened key-ordered contents of a map (`flatten(pick(m, keys), keys)`),
    total under the `mapsHaveKeys` guard. -/
def flattenPickD (m : WeightMap) (keys : List String) : List ℝ :=
  (keys.map (fun k => ((List.lookup k m).getD ⟨[], []⟩).data)).flatten

/-- Flattened per-key difference `cur - last`
    (`flatten(deltaDict(pick(cur), pick(last), keys), keys)`), total under the
    `mapsHaveKeys` guard. -/
def deltaFlatD (cur last : WeightMap) (keys : List String) : List ℝ :=
  (keys.map (fun k =>
    List.zipWith (fun a b => a - b)
      ((List.lookup k cur).getD ⟨[], []⟩).data
      ((List.lookup k last).getD ⟨[], []⟩).data)).flatten

/-- The `(clientIdx, task)` decoder blocks, in client order then task order. -/
def blocksOf (clients : List FederatedClient) : List (ℕ × TaskName) :=
  (((List.range clients.length).zip clients).map
    (fun p => p.2.tasks.map (fun t => (p.1, t)))).flatten

/-- The deduplicated, sorted relative decoder key set over all blocks
    (`Array.from(relKeySet).sort()`). -/
def relKeysOf (clients : List FederatedClient) (saveCkpt : List WeightMap) : List String :=
  List.insertionSort (fun a b => a ≤ b)
    (((blocksOf clients).map
      (fun b => (getDecoderKeysForTask ((saveCkpt.getD b.1 []).map Prod.fst) b.2).map
        (fun fk => toRelativeDecoderKey fk b.2))).flatten).dedup

/-- Faults of `aggregate`: a tfjs-level fault on malformed inputs (missing
    key or index), or the explicit unsupported-strategy throw. -/
inductive AggError
  | shapeFault
  | unsupportedStrategy
deriving DecidableEq

/-- Observable state threaded through `aggregate`: the client models, the
    staged per-client checkpoints (`update`), and the Hyperweight cache. -/
structure AggState where
  models : List LiveModel
  staged : List WeightMap
  encCache : Option EncCache
  decCache : Option DecCache

/-- Result of a run of `aggregate`: the state at return or at the throw. -/
structure AggResult where
  state : AggState
  err : Option AggError

/-- The encoder section of `aggregate` (lines 96-176): returns the staged
    maps and encoder cache after the selected strategy, or `none` where the
    source faults on a missing key.  On a mid-section fault the staged
    contents are approximated by their pre-call value (only error-free staged
    contents are observable through the spec's claims). -/
noncomputable def encSection (clients : List FederatedClient)
    (saveCkpt lastCkpt : List WeightMap) (hw : Hyperweight) (encoderAgg : EncoderAgg)
    (caC : ℝ) (staged : List WeightMap) : Option (List WeightMap × Option EncCache) :=
  match encoderAgg with
  | .none => some (staged, hw.encCache)
  | .fedavg =>
    let encKeys := getEncoderKeys ((saveCkpt.headD []).map Prod.fst)
    if mapsHaveKeys saveCkpt encKeys then
      some (writeToFirst clients.length (meanSoup saveCkpt encKeys) staged, hw.encCache)
    else Option.none
  | .conflict_averse =>
    let n := clients.length
    let encKeys := getEncoderKeys ((saveCkpt.headD []).map Prod.fst)
    if mapsHaveKeys (saveCkpt.take n) encKeys && mapsHaveKeys (lastCkpt.take n) encKeys then
      let encShapes := encKeys.map
        (fun k => ((List.lookup k (saveCkpt.headD [])).getD ⟨[], []⟩).shape)
      let lastFlats := (List.range n).map (fun i => flattenPickD (lastCkpt.getD i []) encKeys)
      let deltaFlats := (List.range n).map
        (fun i => deltaFlatD (saveCkpt.getD i []) (lastCkpt.getD i []) encKeys)
      -- global CA delta from the raw deltas, then in-place homo averaging
      let globalDelta := getCaDelta deltaFlats caC
      let homoDeltas := homoAverageEncoderDeltasInPlace deltaFlats
        (clients.map FederatedClient.toClient)
      match hw.enc with
      | some pol =>
        let flattenNew := pol.forward lastFlats homoDeltas globalDelta
        some (List.zipWith (fun u fv => wmSetMany u (unflatten fv encKeys encShapes))
            (staged.take n) flattenNew ++ staged.drop n,
          some ⟨encKeys, encShapes, lastFlats, homoDeltas, globalDelta⟩)
      | Option.none =>
        some (List.zipWith (fun u lf => wmSetMany u (unflatten (addVec lf globalDelta)
              encKeys encShapes))
            (staged.take n) lastFlats ++ staged.drop n,
          hw.encCache)
    else Option.none

/-- The decoder `fedavg` branch of `aggregate` (for a nonempty block list
    headed by `b0`): canonical relative keys are taken from the first block
    only, averaged per key across all blocks, and written back to every block
    by task-qualified key; `none` where the source faults on a missing key. -/
noncomputable def decFedavgStaged (clients : List FederatedClient)
    (saveCkpt : List WeightMap) (b0 : ℕ × TaskName) (staged : List WeightMap) :
    Option (List WeightMap) :=
  let full0 := getDecoderKeysForTask ((saveCkpt.getD b0.1 []).map Prod.fst) b0.2
  let relKeys0 := List.insertionSort (fun a b => a ≤ b)
    (full0.map (fun fk => toRelativeDecoderKey fk b0.2))
  if (blocksOf clients).all (fun b => relKeys0.all
      (fun rk => (List.lookup (fromRelativeDecoderKey rk b.2)
        (saveCkpt.getD b.1 [])).isSome)) then
    let dicts := (blocksOf clients).map (fun b => relKeys0.map
      (fun rk => (rk, (List.lookup (fromRelativeDecoderKey rk b.2)
        (saveCkpt.getD b.1 [])).getD ⟨[], []⟩)))
    let avg := meanSoup dicts relKeys0
    some ((blocksOf clients).foldl
      (fun st b => st.set b.1 (wmSetMany (st.getD b.1 [])
        (avg.map (fun kv => (fromRelativeDecoderKey kv.1 b.2, kv.2))))) staged)
  else Option.none

/-- The decoder `cross_attention` branch of `aggregate` with an attached
    policy: per-block last/delta maps over the global relative key set
    (skipping keys missing from either checkpoint, as the source's
    `continue` does), the new cache, and the write-back of the policy's
    output blocks by task-qualified key.  Returns (staged', new cache). -/
noncomputable def decXASection (clients : List FederatedClient)
    (saveCkpt lastCkpt : List WeightMap) (pol : DecPolicy) (staged : List WeightMap) :
    List WeightMap × DecCache :=
  let relKeys := relKeysOf clients saveCkpt
  let lastBlocks := (blocksOf clients).map (fun b => relKeys.filterMap
    (fun rk => match List.lookup (fromRelativeDecoderKey rk b.2) (lastCkpt.getD b.1 []),
      List.lookup (fromRelativeDecoderKey rk b.2) (saveCkpt.getD b.1 []) with
      | some lt, some _ => some (rk, lt)
      | _, _ => Option.none))
  let deltaBlocks := (blocksOf clients).map (fun b => relKeys.filterMap
    (fun rk => match List.lookup (fromRelativeDecoderKey rk b.2) (lastCkpt.getD b.1 []),
      List.lookup (fromRelativeDecoderKey rk b.2) (saveCkpt.getD b.1 []) with
      | some lt, some ct =>
        some (rk, (⟨ct.shape, List.zipWith (fun a b => a - b) ct.data lt.data⟩ : Tensor))
      | _, _ => Option.none))
  let newBlocks := pol.forward lastBlocks deltaBlocks
    ((blocksOf clients).map Prod.snd) ((blocksOf clients).map Prod.fst) relKeys
  (((blocksOf clients).zip newBlocks).foldl
    (fun st p => st.set p.1.1 (wmSetMany (st.getD p.1.1 [])
      (p.2.map (fun kv => (fromRelativeDecoderKey kv.1 p.1.2, kv.2))))) staged,
   ⟨relKeys, (blocksOf clients).map Prod.snd, (blocksOf clients).map Prod.fst,
     lastBlocks, deltaBlocks⟩)

/-- Model of `aggregate(clients, saveCkpt, lastCkpt, hyperweight, encoderAgg,
    decoderAgg, caC)` (aggregate.ts).  `update` starts as a value-level clone
    of `saveCkpt`; the encoder section runs first, then the decoder section
    (which alone may raise the unsupported-strategy error), and only on the
    full success path does every client model reload from its staged map.
    Malformed inputs (empty `saveCkpt`, too-short checkpoint lists, missing
    keys) fault where the source would throw a tfjs/TypeError; a `fedavg`
    decoder with zero blocks returns early without reloading any model. -/
noncomputable def runAggregate (clients : List FederatedClient)
    (saveCkpt lastCkpt : List WeightMap) (hw : Hyperweight)
    (encoderAgg : EncoderAgg) (decoderAgg : DecoderAgg) (caC : ℝ) : AggResult :=
  if saveCkpt.length = 0 ∨ saveCkpt.length < clients.length ∨
      lastCkpt.length < clients.length then
    ⟨⟨clients.map FederatedClient.model, saveCkpt, hw.encCache, hw.decCache⟩,
      some AggError.shapeFault⟩
  else
    match encSection clients saveCkpt lastCkpt hw encoderAgg caC saveCkpt with
    | Option.none =>
      ⟨⟨clients.map FederatedClient.model, saveCkpt, hw.encCache, hw.decCache⟩,
        some AggError.shapeFault⟩
    | some (staged1, encCache1) =>
      match decoderAgg with
      | .none =>
        ⟨⟨List.zipWith (fun c u => loadCheckpoint c.model u) clients staged1,
          staged1, encCache1, hw.decCache⟩, Option.none⟩
      | .fedavg =>
        match blocksOf clients with
        | [] =>
          -- `if (blocks.length === 0) return;`: no model reload
          ⟨⟨clients.map FederatedClient.model, staged1, encCache1, hw.decCache⟩,
            Option.none⟩
        | b0 :: _ =>
          match decFedavgStaged clients saveCkpt b0 staged1 with
          | some staged2 =>
            ⟨⟨List.zipWith (fun c u => loadCheckpoint c.model u) clients staged2,
              staged2, encCache1, hw.decCache⟩, Option.none⟩
          | Option.none =>
            ⟨⟨clients.map FederatedClient.model, staged1, encCache1, hw.decCache⟩,
              some AggError.shapeFault⟩
      | .cross_attention =>
        match hw.dec with
        | Option.none =>
          -- the strategy check: thrown before any decoder-section mutation
          ⟨⟨clients.map FederatedClient.model, staged1, encCache1, hw.decCache⟩,
            some AggError.unsupportedStrategy⟩
        | some pol =>
          ⟨⟨List.zipWith (fun c u => loadCheckpoint c.model u) clients
              (decXASection clients saveCkpt lastCkpt pol staged1).1,
            (decXASection clients saveCkpt lastCkpt pol staged1).1, encCache1,
            some (decXASection clients saveCkpt lastCkpt pol staged1).2⟩, Option.none⟩

/-- Server configuration read at each step (server.ts mutable fields plus
    which Hyperweight policies are attached). -/
structure ServerConfig where
  encPolicyAttached : Bool
  decPolicyAttached : Bool
  encoderAgg : EncoderAgg
  decoderAgg : DecoderAgg
deriving DecidableEq

/-- Trace-level server state: the round counter, whether the baseline
    checkpoint exists, and for each Hyperweight cache slot the round whose
    `aggregate()` wrote it (`none` while empty). -/
structure ServerState where
  round : ℕ
  hasLastCkpt : Bool
  encCacheRound : Option ℕ
  decCacheRound : Option ℕ
deriving DecidableEq

/-- Events observable during one `step()`: a `updateHyperweight` invocation
    (recording which cache each policy's gradient step consumed, `none` for
    no step on that side), and the completed aggregation of a round. -/
inductive ServerEvent
  | metaUpdate (encCacheUsed : Option ℕ) (decCacheUsed : Option ℕ)
  | aggregated (round : ℕ)
deriving DecidableEq

/-- The fresh server state after `reset()`: round 0, no checkpoints, empty
    caches. -/
def serverInit : ServerState := ⟨0, false, Option.none, Option.none⟩

/-- Bool test for the meta-update event. -/
def isMetaUpdate : ServerEvent → Bool
  | .metaUpdate _ _ => true
  | _ => false

/-- Trace model of `FederatedServer.step(clients)` (server.ts lines 126-188):
    (1) snapshot the baseline on the first call; (2)-(4) train, collect,
    diagnose (no Hyperweight effect); (5) if `round > 0`, run
    `updateHyperweight`, whose per-policy gradient step consumes the cache
    written by the previous round's aggregate (policy and cache must both be
    present); (6) run `aggregate()`, which replaces the encoder cache under
    `conflict_averse` with an attached encoder policy, throws for
    `cross_attention` without a decoder policy (aborting the round after the
    encoder cache replacement, with the round counter unchanged), and
    otherwise replaces the decoder cache under `cross_attention`; (7)-(8)
    rotate checkpoints and advance the round. -/
def serverStep (cfg : ServerConfig) (s : ServerState) : List ServerEvent × ServerState :=
  let metaEvents := if 0 < s.round then
      [ServerEvent.metaUpdate
        (if cfg.encPolicyAttached = true then s.encCacheRound else Option.none)
        (if cfg.decPolicyAttached = true then s.decCacheRound else Option.none)]
    else []
  let encCache' := if cfg.encoderAgg = EncoderAgg.conflict_averse ∧
      cfg.encPolicyAttached = true then some s.round else s.encCacheRound
  if cfg.decoderAgg = DecoderAgg.cross_attention ∧ cfg.decPolicyAttached = false then
    (metaEvents, ⟨s.round, true, encCache', s.decCacheRound⟩)
  else
    let decCache' := if cfg.decoderAgg = DecoderAgg.cross_attention ∧
        cfg.decPolicyAttached = true then some s.round else s.decCacheRound
    (metaEvents ++ [ServerEvent.aggregated s.round],
      ⟨s.round + 1, true, encCache', decCache'⟩)

/-! ### Theorems -/

section SimplexLemmas

variable {α : Type} [LinearOrderedField α]

lemma sortDesc_perm (v : List α) : (sortDesc v).Perm v :=
  List.perm_insertionSort _ v

lemma sortDesc_sorted (v : List α) : (sortDesc v).Sorted (fun a b => b ≤ a) :=
  List.sorted_insertionSort _ v

lemma sortDesc_length (v : List α) : (sortDesc v).length = v.length :=
  (sortDesc_perm v).length_eq

/-- Characterization of the scan loop: starting at position `i` with the
    correct running sum, the result is either the initial register (and no
    index from `i` on fires) or the largest firing index. -/
lemma rhoLoop_spec (u : List α) :
    ∀ (rest : List α) (i : ℕ) (r : ℤ), rest = u.drop i →
      (rhoLoop rest ((u.take i).sum) i r = r ∧
        ∀ j, i ≤ j → j < u.length → ¬ condIdx u j) ∨
      (∃ k, i ≤ k ∧ k < u.length ∧ rhoLoop rest ((u.take i).sum) i r = (k : ℤ) ∧
        condIdx u k ∧ ∀ j, k < j → j < u.length → ¬ condIdx u j) := by
  intro rest
  induction rest with
  | nil =>
    intro i r h
    left
    refine ⟨rfl, fun j hij hj hc => ?_⟩
    have hlen : u.length ≤ i := by
      by_contra hlt
      push_neg at hlt
      have := List.drop_eq_nil_iff.mp h.symm
      omega
    omega
  | cons x rest' ih =>
    intro i r h
    have hi : i < u.length := by
      by_contra hge
      push_neg at hge
      rw [List.drop_eq_nil_of_le hge] at h
      exact List.cons_ne_nil _ _ h
    have hdrop : u.drop i = u[i] :: u.drop (i + 1) := List.drop_eq_getElem_cons hi
    rw [hdrop] at h
    have hx : x = u[i] := (List.cons.injEq _ _ _ _ ▸ h).1
    have hrest : rest' = u.drop (i + 1) := (List.cons.injEq _ _ _ _ ▸ h).2
    have hsum : (u.take i).sum + x = (u.take (i + 1)).sum := by
      rw [hx, List.sum_take_succ u i hi]
    have hcond : (0 < x - (((u.take i).sum + x) - 1) / ((i : α) + 1)) ↔ condIdx u i := by
      unfold condIdx
      rw [hsum, hx, List.getD_eq_getElem u 0 hi]
    show (rhoLoop (x :: rest') ((u.take i).sum) i r = r ∧ _) ∨ _
    rw [rhoLoop]
    by_cases hc : condIdx u i
    · rw [if_pos (hcond.mpr hc), hsum]
      rcases ih (i + 1) (i : ℤ) hrest with ⟨heq, hnone⟩ | ⟨k, hik, hk, heq, hck, hafter⟩
      · right
        exact ⟨i, le_refl i, hi, heq, hc, fun j hij hj => hnone j hij hj⟩
      · right
        exact ⟨k, by omega, hk, heq, hck, hafter⟩
    · rw [if_neg (fun hlt => hc (hcond.mp hlt)), hsum]
      rcases ih (i + 1) r hrest with ⟨heq, hnone⟩ | ⟨k, hik, hk, heq, hck, hafter⟩
      · left
        refine ⟨heq, fun j hij hj => ?_⟩
        rcases Nat.eq_or_lt_of_le hij with rfl | hlt
        · exact hc
        · exact hnone j hlt hj
      · right
        exact ⟨k, by omega, hk, heq, hck, hafter⟩

/-- The test always fires at index 0 of a nonempty list: it reduces to 1 > 0. -/
lemma condIdx_zero (u : List α) (hu : u ≠ []) : condIdx u 0 := by
  match u, hu with
  | x :: rest, _ =>
    unfold condIdx
    simp only [List.getD_cons_zero, List.take_succ_cons, List.take_zero, List.sum_cons,
      List.sum_nil, Nat.cast_zero, zero_add, add_zero, div_one]
    linarith

/-- For a nonempty input the scan loop lands on the largest firing index. -/
lemma rhoLoop_main (u : List α) (hu : u ≠ []) :
    ∃ k : ℕ, k < u.length ∧ rhoLoop u 0 0 (-1) = (k : ℤ) ∧ condIdx u k ∧
      ∀ j, k < j → j < u.length → ¬ condIdx u j := by
  have h := rhoLoop_spec u u 0 (-1) (by simp)
  rw [List.take_zero, List.sum_nil] at h
  rcases h with ⟨_, hnone⟩ | ⟨k, _, hk, heq, hck, hafter⟩
  · exact absurd (condIdx_zero u hu)
      (hnone 0 (Nat.zero_le 0) (List.length_pos.mpr hu))
  · exact ⟨k, hk, heq, hck, hafter⟩

lemma sortDesc_ne_nil (v : List α) (hv : v ≠ []) : sortDesc v ≠ [] := by
  intro h
  have := (sortDesc_perm v).length_eq
  rw [h] at this
  exact hv (List.length_eq_zero.mp this.symm)

/-- Sum of the thresholded map over a block where every entry is at least the
    threshold: the `max` never clips, so the sum telescopes. -/
lemma sum_map_clip_of_le (θ : α) (l : List α) (h : ∀ x ∈ l, θ ≤ x) :
    (l.map (fun x => max (x - θ) 0)).sum = l.sum - l.length * θ := by
  induction l with
  | nil => simp
  | cons x rest ih =>
    have hx : θ ≤ x := h x (List.mem_cons_self x rest)
    have hrest := ih (fun y hy => h y (List.mem_cons_of_mem x hy))
    simp only [List.map_cons, List.sum_cons, List.length_cons, hrest]
    rw [max_eq_left (by linarith)]
    push_cast
    ring

/-- Sum of the thresholded map over a block where every entry is at most the
    threshold: the `max` clips everything to zero. -/
lemma sum_map_clip_of_ge (θ : α) (l : List α) (h : ∀ x ∈ l, x ≤ θ) :
    (l.map (fun x => max (x - θ) 0)).sum = 0 := by
  have : l.map (fun x => max (x - θ) 0) = l.map (fun _ => (0 : α)) :=
    List.map_congr_left (fun x hx => max_eq_right (by linarith [h x hx]))
  simp [this]

/-- Structure of the threshold chosen by `projectToSimplex`: there is a pivot
    index `k` into the sorted vector such that entries up to `k` lie strictly
    above `theta`, entries after `k` lie at or below it, and
    `theta * (k+1) = sum(u[0..k]) - 1`. -/
lemma theta_pivot (v : List α) (hv : v ≠ []) :
    ∃ k : ℕ, k < (sortDesc v).length ∧
      (∀ x ∈ (sortDesc v).take (k + 1), thetaOf v < x) ∧
      (∀ x ∈ (sortDesc v).drop (k + 1), x ≤ thetaOf v) ∧
      thetaOf v * ((k : α) + 1) = ((sortDesc v).take (k + 1)).sum - 1 := by
  set u := sortDesc v with hu
  have hune : u ≠ [] := sortDesc_ne_nil v hv
  obtain ⟨k, hk, heq, hck, hafter⟩ := rhoLoop_main u hune
  have hsorted : u.Sorted (fun a b => b ≤ a) := sortDesc_sorted v
  have hpair := List.pairwise_iff_getElem.mp hsorted
  have hkpos : (0 : α) < (k : α) + 1 := by positivity
  have htheta : thetaOf v = ((u.take (k + 1)).sum - 1) / ((k : α) + 1) := by
    unfold thetaOf
    rw [← hu, heq]
    have h1 : ((k : ℤ) + 1).toNat = k + 1 := by
      rw [show ((k : ℤ) + 1) = ((k + 1 : ℕ) : ℤ) by push_cast; ring, Int.toNat_natCast]
    have h2 : (((k : ℤ) : α)) = (k : α) := Int.cast_natCast k
    rw [h1, h2]
  -- monotone access: indices at most k give entries at least u[k]
  have hmono : ∀ (i j : ℕ) (hi : i < u.length) (hj : j < u.length), i ≤ j → u[j] ≤ u[i] := by
    intro i j hi hj hij
    rcases Nat.eq_or_lt_of_le hij with rfl | hlt
    · exact le_refl _
    · exact hpair i j hi hj hlt
  have hck' : thetaOf v < u[k] := by
    unfold condIdx at hck
    rw [List.getD_eq_getElem u 0 hk] at hck
    rw [htheta]
    linarith
  refine ⟨k, hk, ?_, ?_, ?_⟩
  · intro x hx
    obtain ⟨j, hj, hjx⟩ := List.mem_iff_getElem.mp hx
    have hjlen : j < u.length := lt_of_lt_of_le hj (by rw [List.length_take]; exact min_le_right _ _)
    have hjk : j ≤ k := by
      have := hj
      rw [List.length_take] at this
      omega
    rw [← hjx, List.getElem_take]
    exact lt_of_lt_of_le hck' (hmono j k hjlen hk hjk)
  · intro x hx
    obtain ⟨j, hj, hjx⟩ := List.mem_iff_getElem.mp hx
    have hlen : k + 1 + j < u.length := by
      have := hj
      rw [List.length_drop] at this
      omega
    have hk1 : k + 1 < u.length := by omega
    -- the test fails at k+1, which pins u[k+1] at or below theta
    have hfail : ¬ condIdx u (k + 1) := hafter (k + 1) (Nat.lt_succ_self k) hk1
    unfold condIdx at hfail
    push_neg at hfail
    rw [List.getD_eq_getElem u 0 hk1] at hfail
    have hsum2 : (u.take (k + 2)).sum = (u.take (k + 1)).sum + u[k + 1] :=
      List.sum_take_succ u (k + 1) hk1
    have hcast : (((k + 1 : ℕ)) : α) + 1 = (k : α) + 2 := by push_cast; ring
    rw [show k + 1 + 1 = k + 2 from rfl, hsum2, hcast] at hfail
    have hk2pos : (0 : α) < (k : α) + 2 := by positivity
    have hle : u[k + 1] ≤ ((u.take (k + 1)).sum + u[k + 1] - 1) / ((k : α) + 2) := by linarith
    rw [le_div_iff₀ hk2pos] at hle
    have hle2 : u[k + 1] ≤ thetaOf v := by
      rw [htheta, le_div_iff₀ hkpos]
      nlinarith
    rw [← hjx, List.getElem_drop]
    exact le_trans (hmono (k + 1) (k + 1 + j) hk1 hlen (by omega)) hle2
  · rw [htheta, div_mul_cancel₀ _ (ne_of_gt hkpos)]

/-- Every component of the projection is nonnegative. -/
lemma projectToSimplex_nonneg (v : List α) : ∀ x ∈ projectToSimplex v, 0 ≤ x := by
  intro x hx
  obtain ⟨a, _, rfl⟩ := List.mem_map.mp hx
  exact le_max_right _ _

/-- The projection preserves the vector's length. -/
lemma projectToSimplex_length (v : List α) : (projectToSimplex v).length = v.length :=
  List.length_map v _

/-- The components of the projection of a nonempty vector sum to exactly 1. -/
lemma projectToSimplex_sum (v : List α) (hv : v ≠ []) : (projectToSimplex v).sum = 1 := by
  obtain ⟨k, hk, habove, hbelow, hsum⟩ := theta_pivot v hv
  set u := sortDesc v with hu
  set θ := thetaOf v with hθ
  have hperm : (projectToSimplex v).Perm (u.map (fun x => max (x - θ) 0)) :=
    ((sortDesc_perm v).map _).symm
  rw [hperm.sum_eq]
  have hsplit : u = u.take (k + 1) ++ u.drop (k + 1) := (List.take_append_drop _ u).symm
  rw [hsplit, List.map_append, List.sum_append,
    sum_map_clip_of_le θ _ (fun x hx => le_of_lt (habove x hx)),
    sum_map_clip_of_ge θ _ hbelow]
  have hlen : ((u.take (k + 1)).length : α) = (k : α) + 1 := by
    rw [List.length_take]
    have : (k + 1) ⊓ u.length = k + 1 := by omega
    rw [this]
    push_cast
    ring
  rw [hlen]
  linarith

/-- Pointwise inequality behind optimality of the clipped projection. -/
lemma clip_pointwise (θ a b : α) (hb : 0 ≤ b) :
    (a - max (a - θ) 0) ^ 2 + 2 * θ * (max (a - θ) 0 - b) ≤ (a - b) ^ 2 := by
  rcases le_total (a - θ) 0 with h | h
  · rw [max_eq_right h]
    nlinarith [mul_nonneg hb (by linarith : (0 : α) ≤ θ - a)]
  · rw [max_eq_left h]
    nlinarith [sq_nonneg (a - θ - b)]

/-- Summed form of the pointwise inequality over vectors of equal length. -/
lemma clip_sum_ineq (θ : α) :
    ∀ (v z : List α), z.length = v.length → (∀ b ∈ z, 0 ≤ b) →
      sqDist v (v.map (fun x => max (x - θ) 0)) +
        2 * θ * ((v.map (fun x => max (x - θ) 0)).sum - z.sum) ≤ sqDist v z := by
  intro v
  induction v with
  | nil =>
    intro z hz _
    rw [List.length_eq_zero.mp hz]
    simp [sqDist]
  | cons a v' ih =>
    intro z hz hb
    match z, hz with
    | b :: z', hz =>
      have hlen' : z'.length = v'.length := by simpa using hz
      have hb0 : 0 ≤ b := hb b (List.mem_cons_self b z')
      have hb' : ∀ x ∈ z', 0 ≤ x := fun x hx => hb x (List.mem_cons_of_mem b hx)
      have hpt := clip_pointwise θ a b hb0
      have hih := ih z' hlen' hb'
      simp only [sqDist, List.map_cons, List.zipWith_cons_cons, List.sum_cons] at *
      linarith

/-- The projection is Euclidean-nearest among simplex points of equal length. -/
lemma projectToSimplex_nearest (v : List α) (hv : v ≠ []) (z : List α)
    (hlen : z.length = v.length) (hz : ∀ b ∈ z, 0 ≤ b) (hsum : z.sum = 1) :
    sqDist v (projectToSimplex v) ≤ sqDist v z := by
  have h := clip_sum_ineq (thetaOf v) v z hlen hz
  have hone : (v.map (fun x => max (x - thetaOf v) 0)).sum = 1 :=
    projectToSimplex_sum v hv
  rw [hone, hsum] at h
  simpa [projectToSimplex] using h

/-- Projecting any single-entry vector yields `[1]`: the loop fires at index
    0, so `theta = a - 1` and `max (a - theta) 0 = 1`. -/
lemma projectToSimplex_singleton (a : α) : projectToSimplex [a] = [1] := by
  have hrho : rhoLoop [a] (0 : α) 0 (-1) = 0 := by
    rw [rhoLoop]
    rw [if_pos (by norm_num : (0 : α) < a - (0 + a - 1) / (((0 : ℕ) : α) + 1))]
    rfl
  have hs : sortDesc [a] = [a] := rfl
  unfold projectToSimplex thetaOf
  rw [hs, hrho]
  norm_num

end SimplexLemmas

section SolverLemmas

lemma projectToSimplex_nil : projectToSimplex ([] : List ℝ) = [] := rfl

lemma gdCandidate_length (A : List (List ℝ)) (c : ℝ) (s : GDState) :
    (gdCandidate A c s).length = s.x.length := by
  simp [gdCandidate, projectToSimplex_length, gradCA]

lemma gdCandidate_ne_nil (A : List (List ℝ)) (c : ℝ) (s : GDState) (h : s.x ≠ []) :
    gdCandidate A c s ≠ [] := by
  intro hc
  apply h
  have := gdCandidate_length A c s
  rw [hc] at this
  exact List.length_eq_zero.mp this.symm

lemma gdCandidate_onSimplex (A : List (List ℝ)) (c : ℝ) (s : GDState) (h : s.x ≠ []) :
    onSimplex (gdCandidate A c s) := by
  have hz : List.zipWith (fun xi gi => xi - s.step * gi) s.x (gradCA A s.x c s.x) ≠ [] := by
    intro hzn
    apply h
    have : (List.zipWith (fun xi gi => xi - s.step * gi) s.x (gradCA A s.x c s.x)).length
        = s.x.length := by simp [gradCA]
    rw [hzn] at this
    exact List.length_eq_zero.mp this.symm
  exact ⟨projectToSimplex_nonneg _, projectToSimplex_sum _ hz⟩

/-- Feasibility is an invariant of the solver loop: whatever exit path is
    taken, the returned vector is the start vector or a projection output. -/
lemma gdIter_onSimplex (A : List (List ℝ)) (c tol : ℝ) :
    ∀ (it : ℕ) (s : GDState), s.x ≠ [] → onSimplex s.x → onSimplex (gdIter A c tol it s) := by
  intro it
  induction it with
  | zero => intro s _ hs; simpa [gdIter] using hs
  | succ n ih =>
    intro s hne hs
    rw [gdIter]
    split
    · split
      · exact hs
      · exact ih ⟨s.x, s.fx, s.step * 0.5⟩ hne hs
    · split
      · exact gdCandidate_onSimplex A c s hne
      · exact ih _ (gdCandidate_ne_nil A c s hne) (gdCandidate_onSimplex A c s hne)

lemma gdIter_x_nil (A : List (List ℝ)) (c tol : ℝ) :
    ∀ (it : ℕ) (s : GDState), s.x = [] → gdIter A c tol it s = [] := by
  intro it
  induction it with
  | zero => intro s h; simpa [gdIter] using h
  | succ n ih =>
    intro s h
    have hcand : gdCandidate A c s = [] := by
      simp [gdCandidate, h, projectToSimplex_nil]
    rw [gdIter]
    split
    · split
      · exact h
      · exact ih ⟨s.x, s.fx, s.step * 0.5⟩ h
    · split
      · exact hcand
      · exact ih _ hcand

lemma solveSimplexProjectedGD_nil (c tol : ℝ) (maxIters : ℕ) :
    solveSimplexProjectedGD [] c maxIters tol = [] := by
  unfold solveSimplexProjectedGD
  exact gdIter_x_nil _ _ _ _ _ (by simp)

lemma uniform_onSimplex (n : ℕ) (hn : n ≠ 0) :
    onSimplex (List.replicate n (1 / (n : ℝ))) := by
  constructor
  · intro x hx
    rw [List.eq_of_mem_replicate hx]
    positivity
  · rw [List.sum_replicate, nsmul_eq_mul]
    field_simp

lemma zip_abs_self_sum (l : List ℝ) : (List.zipWith (fun a b => |a - b|) l l).sum = 0 := by
  induction l with
  | nil => rfl
  | cons x xs ih => simp [ih]

/-- A state whose candidate equals its own iterate exits through the L1
    convergence break on the next iteration. -/
lemma gdIter_stationary (A : List (List ℝ)) (c tol : ℝ) (it : ℕ) (s : GDState)
    (hc : gdCandidate A c s = s.x) (hfx : s.fx = objCA A s.x c s.x) (ht : 0 < tol) :
    gdIter A c tol (it + 1) s = s.x := by
  rw [gdIter, hc, ← hfx,
    if_neg (by norm_num : ¬ (s.fx + 1e-12 < s.fx)),
    if_pos (by rw [zip_abs_self_sum]; exact ht)]

/-- On a one-dimensional state the candidate is always `[1]` (the projection
    of any single-entry vector). -/
lemma gdCandidate_single (A : List (List ℝ)) (c fx st a : ℝ) :
    gdCandidate A c ⟨[a], fx, st⟩ = [1] := by
  unfold gdCandidate gradCA
  have hr : List.range 1 = [0] := by simp [List.range_succ]
  simp only [List.length_cons, List.length_nil, hr, List.map_cons, List.map_nil,
    List.zipWith_cons_cons, List.zipWith_nil_right]
  exact projectToSimplex_singleton _

/-- For any 1 × 1 matrix the solver immediately returns `[1]`. -/
lemma solve_singleton (A : List (List ℝ)) (c : ℝ) (hA : A.length = 1) :
    solveSimplexProjectedGD A c 500 (1e-9) = [1] := by
  unfold solveSimplexProjectedGD
  rw [hA]
  have hx0 : List.replicate 1 (1 / ((1 : ℕ) : ℝ)) = [(1 : ℝ)] := by norm_num
  rw [hx0]
  rw [show (500 : ℕ) = 499 + 1 from rfl]
  exact gdIter_stationary A c (1e-9) 499 ⟨[1], objCA A [1] c [1], 0.1⟩
    (gdCandidate_single A c _ _ 1) rfl (by norm_num)

end SolverLemmas

/-! ### Claim C2 -/

lemma scale_one (v : List ℝ) : scale 1 v = v := by
  simp [scale]

lemma dotArr_self_nonneg (v : List ℝ) : 0 ≤ dotArr v v := by
  induction v with
  | nil => simp [dotArr]
  | cons x xs ih =>
    simp only [dotArr, List.zipWith_cons_cons, List.sum_cons] at *
    nlinarith [mul_self_nonneg x]

lemma dotArr_scale_self (cc : ℝ) (v : List ℝ) :
    dotArr (scale cc v) (scale cc v) = cc ^ 2 * dotArr v v := by
  induction v with
  | nil => simp [dotArr, scale]
  | cons x xs ih =>
    simp only [dotArr, scale, List.map_cons, List.zipWith_cons_cons, List.sum_cons] at *
    rw [ih]
    ring

lemma sqDist_addVec_le (m u : List ℝ) : sqDist (addVec m u) m ≤ dotArr u u := by
  induction m generalizing u with
  | nil =>
    simp only [addVec, List.zipWith_nil_left, sqDist, List.zipWith_nil_right, List.sum_nil]
    exact dotArr_self_nonneg u
  | cons a m' ih =>
    cases u with
    | nil => simp [addVec, sqDist, dotArr]
    | cons b u' =>
      have h := ih u'
      simp only [addVec, List.zipWith_cons_cons, sqDist, List.sum_cons, dotArr] at *
      nlinarith [h]

lemma eps_frac_bound (S : ℝ) (hS : 0 ≤ S) :
    (EPS / (Real.sqrt S + EPS)) ^ 2 * S ≤ EPS ^ 2 := by
  have heps : (0 : ℝ) < EPS := by norm_num [EPS]
  have h1 : 0 ≤ Real.sqrt S := Real.sqrt_nonneg S
  have h2 : Real.sqrt S ^ 2 = S := Real.sq_sqrt hS
  have hd : 0 < Real.sqrt S + EPS := by linarith
  rw [div_pow, div_mul_eq_mul_div, div_le_iff₀ (by positivity)]
  nlinarith [mul_nonneg (mul_nonneg h1 heps.le) (sq_nonneg EPS), sq_nonneg EPS,
    mul_nonneg (sq_nonneg EPS) (mul_nonneg h1 heps.le)]

/-- C2 (amended).  With coefficient C = 0 the conflict-averse global delta is
    the plain cross-client mean plus the guard correction
    `(EPS/(‖gw‖+EPS))·gw`, whose Euclidean norm is at most `EPS = 1e-8`; it is
    within squared distance `EPS²` of the mean but not exactly equal to it
    (see the counterexample). -/
theorem C2_caDelta_eps_close_to_mean (ds : List (List ℝ)) :
    sqDist (getCaDelta ds 0) (meanVecs ds) ≤ EPS ^ 2 := by
  unfold getCaDelta
  rw [show (1 : ℝ) / (1 + 0 * 0) = 1 by norm_num, scale_one]
  have hco : caCoeff ds 0 = EPS := by simp [caCoeff]
  rw [hco]
  refine le_trans (sqDist_addVec_le _ _) ?_
  rw [dotArr_scale_self]
  exact eps_frac_bound _ (dotArr_self_nonneg _)

/-- C2 counterexample: a single client with delta `[1]`.  The mean is `[1]`
    but the C = 0 conflict-averse delta is `[1 + EPS/(1+EPS)]`. -/
theorem C2_counterexample : getCaDelta [[(1 : ℝ)]] 0 ≠ meanVecs [[(1 : ℝ)]] := by
  have hco : caCoeff [[(1 : ℝ)]] 0 = EPS := by simp [caCoeff]
  have hww : solveSimplexProjectedGD (gramOf [[(1 : ℝ)]]) (caCoeff [[(1 : ℝ)]] 0) 500 (1e-9)
      = [1] :=
    solve_singleton _ _ (by simp [gramOf])
  have hgw : gwOf [[(1 : ℝ)]] (caCoeff [[(1 : ℝ)]] 0) = [1] := by
    unfold gwOf
    rw [hww]
    norm_num [scale, addVec]
  have hmean : meanVecs [[(1 : ℝ)]] = [1] := by
    norm_num [meanVecs, sumVecs, scale]
  unfold getCaDelta
  rw [hgw, hmean, hco, show dotArr [(1 : ℝ)] [1] = 1 by norm_num [dotArr],
    Real.sqrt_one]
  norm_num [scale, addVec, EPS]

/-! ### Claim C1 -/

/-- C1 (amended: nonempty input vectors).  For every nonempty real vector `v`,
    `projectToSimplex v` is componentwise nonnegative, sums to 1 within 1e-9
    (the sum is exactly 1 over the reals), and is the Euclidean-nearest point
    of the simplex `{w : w ≥ 0, Σw = 1}` to `v` (squared-distance form,
    against every same-length simplex vector).  At the empty vector the claim
    fails, see the counterexample. -/
theorem C1_projectToSimplex_spec (v : List ℝ) (hv : v ≠ []) :
    (∀ x ∈ projectToSimplex v, 0 ≤ x) ∧
    |(projectToSimplex v).sum - 1| ≤ 1e-9 ∧
    ∀ z : List ℝ, z.length = v.length → (∀ x ∈ z, 0 ≤ x) → z.sum = 1 →
      sqDist v (projectToSimplex v) ≤ sqDist v z := by
  refine ⟨projectToSimplex_nonneg v, ?_,
    fun z hl hz hs => projectToSimplex_nearest v hv z hl hz hs⟩
  rw [projectToSimplex_sum v hv]
  norm_num

/-- C1 counterexample: on the empty vector (a real input vector) the output is
    empty, so its components sum to 0, not to 1 within 1e-9. -/
theorem C1_counterexample :
    ¬ ((∀ x ∈ projectToSimplex ([] : List ℝ), 0 ≤ x) ∧
       |(projectToSimplex ([] : List ℝ)).sum - 1| ≤ 1e-9) := by
  intro h
  have h2 := h.2
  rw [projectToSimplex_nil] at h2
  norm_num at h2

/-- C1 witness: the amended theorem applied at the concrete vector `[2]`. -/
theorem C1_witness :
    ([(2 : ℝ)] ≠ []) ∧
    ((∀ x ∈ projectToSimplex [(2 : ℝ)], 0 ≤ x) ∧
     |(projectToSimplex [(2 : ℝ)]).sum - 1| ≤ 1e-9 ∧
     ∀ z : List ℝ, z.length = [(2 : ℝ)].length → (∀ x ∈ z, 0 ≤ x) → z.sum = 1 →
       sqDist [(2 : ℝ)] (projectToSimplex [(2 : ℝ)]) ≤ sqDist [(2 : ℝ)] z) :=
  ⟨by simp, C1_projectToSimplex_spec [(2 : ℝ)] (by simp)⟩

/-! ### Claim C10 -/

/-- C10 (amended: nonempty matrices).  For every nonempty square matrix `A`,
    coefficient `c`, iteration budget and tolerance, the solver's result lies
    on the simplex: the uniform start is feasible and every accepted iterate
    is an output of `projectToSimplex`, so feasibility survives every exit
    path (budget exhaustion, step underflow, L1 convergence).  For the empty
    matrix the result is the empty vector, whose components sum to 0. -/
theorem C10_solver_feasible (A : List (List ℝ)) (c tol : ℝ) (maxIters : ℕ)
    (hA : A ≠ []) : onSimplex (solveSimplexProjectedGD A c maxIters tol) := by
  unfold solveSimplexProjectedGD
  have hn : A.length ≠ 0 := fun h => hA (List.length_eq_zero.mp h)
  apply gdIter_onSimplex
  · simp only [ne_eq, List.replicate_eq_nil_iff]
    exact hn
  · exact uniform_onSimplex A.length hn

/-- C10 counterexample: at the empty (0 × 0) square matrix the solver returns
    the empty vector, which is not on the simplex. -/
theorem C10_counterexample :
    ¬ onSimplex (solveSimplexProjectedGD ([] : List (List ℝ)) 0 500 (1e-9)) := by
  rw [solveSimplexProjectedGD_nil]
  rintro ⟨-, h⟩
  simp at h

/-- C10 witness: the amended theorem applied at the 1 × 1 matrix `[[1]]`. -/
theorem C10_witness :
    ([[(1 : ℝ)]] ≠ ([] : List (List ℝ))) ∧
    onSimplex (solveSimplexProjectedGD [[(1 : ℝ)]] 0 5 (1e-9)) :=
  ⟨by simp, C10_solver_feasible [[(1 : ℝ)]] 0 (1e-9) 5 (by simp)⟩

/-! ### Claim C3 -/

/-- C3 (confirmed).  For a server run with an encoder policy attached,
    encoder strategy `conflict_averse` (which requires the policy) and a
    decoder strategy other than `cross_attention`: the step executed at round
    0 applies the hyperweight meta-update 0 times and its aggregate writes
    the encoder cache tagged with round 0; the step executed at round 1
    applies the meta-update exactly once, consuming that round-0 cache. -/
theorem C3_meta_update_schedule (cfg : ServerConfig)
    (henc : cfg.encPolicyAttached = true)
    (hca : cfg.encoderAgg = EncoderAgg.conflict_averse)
    (hdec : cfg.decoderAgg ≠ DecoderAgg.cross_attention) :
    ((serverStep cfg serverInit).1.filter isMetaUpdate).length = 0 ∧
    (serverStep cfg serverInit).2.round = 1 ∧
    (serverStep cfg serverInit).2.encCacheRound = some 0 ∧
    (serverStep cfg (serverStep cfg serverInit).2).1.filter isMetaUpdate =
      [ServerEvent.metaUpdate (some 0) Option.none] := by
  have h0 : serverStep cfg serverInit =
      ([ServerEvent.aggregated 0], ⟨1, true, some 0, Option.none⟩) := by
    unfold serverStep serverInit
    simp [hca, henc, hdec]
  refine ⟨by rw [h0]; rfl, by rw [h0], by rw [h0], ?_⟩
  rw [h0]
  unfold serverStep
  simp [hca, henc, hdec, isMetaUpdate, List.filter]

/-- C3 witness: the schedule at the concrete configuration (encoder policy
    attached, no decoder policy, conflict-averse encoder, decoder `none`). -/
theorem C3_witness :
    ((ServerConfig.mk true false EncoderAgg.conflict_averse DecoderAgg.none).encPolicyAttached
        = true) ∧
    (((serverStep (ServerConfig.mk true false EncoderAgg.conflict_averse DecoderAgg.none)
        serverInit).1.filter isMetaUpdate).length = 0 ∧
      (serverStep (ServerConfig.mk true false EncoderAgg.conflict_averse DecoderAgg.none)
        serverInit).2.round = 1 ∧
      (serverStep (ServerConfig.mk true false EncoderAgg.conflict_averse DecoderAgg.none)
        serverInit).2.encCacheRound = some 0 ∧
      (serverStep (ServerConfig.mk true false EncoderAgg.conflict_averse DecoderAgg.none)
          (serverStep (ServerConfig.mk true false EncoderAgg.conflict_averse DecoderAgg.none)
            serverInit).2).1.filter isMetaUpdate =
        [ServerEvent.metaUpdate (some 0) Option.none]) :=
  ⟨rfl, C3_meta_update_schedule _ rfl rfl (by decide)⟩

/-! ### Claim C4 -/

/-- Characterization of `loadCheckpoint` on a per-weight basis, shared by the
    C5 statement: present canonical names are replaced, absent names keep
    the current value. -/
lemma loadCheckpoint_getD (mdl : LiveModel) (ck : WeightMap) (j : ℕ)
    (hj : j < (List.zip mdl.names mdl.vals).length) :
    (loadCheckpoint mdl ck).vals.getD j ⟨[], []⟩ =
      (match List.lookup (canonicalKey ((List.zip mdl.names mdl.vals).get ⟨j, hj⟩).1) ck with
       | some t => t
       | Option.none => ((List.zip mdl.names mdl.vals).get ⟨j, hj⟩).2) := by
  have hj1 : j < mdl.names.length := by rw [List.length_zip] at hj; omega
  have hj2 : j < mdl.vals.length := by rw [List.length_zip] at hj; omega
  have hlen : (loadCheckpoint mdl ck).vals.length = (List.zip mdl.names mdl.vals).length := by
    simp [loadCheckpoint, List.length_zip]
  have hj' : j < (loadCheckpoint mdl ck).vals.length := by rw [hlen]; exact hj
  have hzw : j < (List.zipWith (fun nm cur => (List.lookup (canonicalKey nm) ck).getD cur)
      mdl.names mdl.vals).length := hj'
  rw [List.getD_eq_getElem _ _ hj']
  show (List.zipWith (fun nm cur => (List.lookup (canonicalKey nm) ck).getD cur)
      mdl.names mdl.vals)[j] = _
  rw [List.getElem_zipWith]
  rw [List.get_eq_getElem, List.getElem_zip]
  cases List.lookup (canonicalKey mdl.names[j]) ck <;> rfl

/-- C4 (amended).  Calling `aggregate` with decoder strategy
    `cross_attention` and no attached decoder policy always raises an error,
    and at that point no client model weight and no decoder cache entry has
    been changed; when additionally the encoder strategy is `none` (and the
    checkpoint lists are not malformed) the error is exactly the
    unsupported-strategy error and the staged checkpoints and encoder cache
    are also unchanged.  With a non-`none` encoder strategy the encoder
    section runs first and mutates staged entries (and, under
    `conflict_averse` with a policy, the encoder cache) before the error is
    raised — see the counterexample. -/
theorem C4_unsupported_strategy (clients : List FederatedClient)
    (saveCkpt lastCkpt : List WeightMap) (hw : Hyperweight)
    (encoderAgg : EncoderAgg) (caC : ℝ) (hpol : hw.dec = Option.none) :
    ((runAggregate clients saveCkpt lastCkpt hw encoderAgg
        DecoderAgg.cross_attention caC).err.isSome = true) ∧
    ((runAggregate clients saveCkpt lastCkpt hw encoderAgg
        DecoderAgg.cross_attention caC).state.models = clients.map FederatedClient.model) ∧
    ((runAggregate clients saveCkpt lastCkpt hw encoderAgg
        DecoderAgg.cross_attention caC).state.decCache = hw.decCache) ∧
    (encoderAgg = EncoderAgg.none →
      ¬ (saveCkpt.length = 0 ∨ saveCkpt.length < clients.length ∨
          lastCkpt.length < clients.length) →
      (runAggregate clients saveCkpt lastCkpt hw EncoderAgg.none
          DecoderAgg.cross_attention caC).err = some AggError.unsupportedStrategy ∧
      (runAggregate clients saveCkpt lastCkpt hw EncoderAgg.none
          DecoderAgg.cross_attention caC).state.staged = saveCkpt ∧
      (runAggregate clients saveCkpt lastCkpt hw EncoderAgg.none
          DecoderAgg.cross_attention caC).state.encCache = hw.encCache) := by
  by_cases hg : saveCkpt.length = 0 ∨ saveCkpt.length < clients.length ∨
      lastCkpt.length < clients.length
  · constructor
    · unfold runAggregate; rw [if_pos hg]; rfl
    · refine ⟨?_, ?_, fun _ hng => absurd hg hng⟩
      · unfold runAggregate; rw [if_pos hg]
      · unfold runAggregate; rw [if_pos hg]
  · have hmain : ∀ ea : EncoderAgg,
        ((runAggregate clients saveCkpt lastCkpt hw ea
            DecoderAgg.cross_attention caC).err.isSome = true) ∧
        ((runAggregate clients saveCkpt lastCkpt hw ea
            DecoderAgg.cross_attention caC).state.models
          = clients.map FederatedClient.model) ∧
        ((runAggregate clients saveCkpt lastCkpt hw ea
            DecoderAgg.cross_attention caC).state.decCache = hw.decCache) := by
      intro ea
      unfold runAggregate
      rw [if_neg hg]
      cases h : encSection clients saveCkpt lastCkpt hw ea caC saveCkpt with
      | none => exact ⟨rfl, rfl, rfl⟩
      | some p =>
        obtain ⟨staged1, encCache1⟩ := p
        simp only [hpol]
        refine ⟨?_, ?_, ?_⟩ <;> trivial
    refine ⟨(hmain _).1, (hmain _).2.1, (hmain _).2.2, fun _ _ => ?_⟩
    have hsec : encSection clients saveCkpt lastCkpt hw EncoderAgg.none caC saveCkpt =
        some (saveCkpt, hw.encCache) := rfl
    unfold runAggregate
    rw [if_neg hg, hsec]
    simp only [hpol]
    refine ⟨?_, ?_, ?_⟩ <;> trivial

/-- C4 counterexample: with encoder strategy `fedavg` (any non-`none` choice)
    two clients' staged encoder entries are overwritten with the cross-client
    mean before the unsupported-strategy error is raised, contradicting the
    claim's "no staged checkpoint entry is changed, for every choice of
    encoder strategy". -/
theorem C4_counterexample :
    ((runAggregate
        [⟨"d", [], ⟨[], []⟩⟩, ⟨"d", [], ⟨[], []⟩⟩]
        [[("encoder_stage0/k", ⟨[1], [(0 : ℝ)]⟩)], [("encoder_stage0/k", ⟨[1], [(2 : ℝ)]⟩)]]
        [[("encoder_stage0/k", ⟨[1], [(0 : ℝ)]⟩)], [("encoder_stage0/k", ⟨[1], [(2 : ℝ)]⟩)]]
        ⟨Option.none, Option.none, Option.none, Option.none⟩
        EncoderAgg.fedavg DecoderAgg.cross_attention 0).err
      = some AggError.unsupportedStrategy) ∧
    ((runAggregate
        [⟨"d", [], ⟨[], []⟩⟩, ⟨"d", [], ⟨[], []⟩⟩]
        [[("encoder_stage0/k", ⟨[1], [(0 : ℝ)]⟩)], [("encoder_stage0/k", ⟨[1], [(2 : ℝ)]⟩)]]
        [[("encoder_stage0/k", ⟨[1], [(0 : ℝ)]⟩)], [("encoder_stage0/k", ⟨[1], [(2 : ℝ)]⟩)]]
        ⟨Option.none, Option.none, Option.none, Option.none⟩
        EncoderAgg.fedavg DecoderAgg.cross_attention 0).state.staged
      ≠ [[("encoder_stage0/k", ⟨[1], [(0 : ℝ)]⟩)], [("encoder_stage0/k", ⟨[1], [(2 : ℝ)]⟩)]]) := by
  have hkeys : getEncoderKeys
      ((([[("encoder_stage0/k", (⟨[1], [(0 : ℝ)]⟩ : Tensor))],
          [("encoder_stage0/k", (⟨[1], [(2 : ℝ)]⟩ : Tensor))]].headD []).map Prod.fst))
      = ["encoder_stage0/k"] := by decide
  have hsec : encSection
      [⟨"d", [], ⟨[], []⟩⟩, ⟨"d", [], ⟨[], []⟩⟩]
      [[("encoder_stage0/k", ⟨[1], [(0 : ℝ)]⟩)], [("encoder_stage0/k", ⟨[1], [(2 : ℝ)]⟩)]]
      [[("encoder_stage0/k", ⟨[1], [(0 : ℝ)]⟩)], [("encoder_stage0/k", ⟨[1], [(2 : ℝ)]⟩)]]
      ⟨Option.none, Option.none, Option.none, Option.none⟩ EncoderAgg.fedavg 0
      [[("encoder_stage0/k", ⟨[1], [(0 : ℝ)]⟩)], [("encoder_stage0/k", ⟨[1], [(2 : ℝ)]⟩)]]
      = some ([[("encoder_stage0/k", ⟨[1], [(1 : ℝ)]⟩)],
               [("encoder_stage0/k", ⟨[1], [(1 : ℝ)]⟩)]], Option.none) := by
    unfold encSection
    rw [hkeys]
    rw [if_pos (by decide)]
    norm_num [writeToFirst, meanSoup, meanTensors, sumVecs, addVec, scale, wmSetMany,
      wmSet, List.lookup]
  constructor
  · unfold runAggregate
    rw [if_neg (by norm_num), hsec]
  · unfold runAggregate
    rw [if_neg (by norm_num), hsec]
    intro h
    simp only [List.cons.injEq, Prod.mk.injEq, Tensor.mk.injEq] at h
    norm_num at h

/-- C4 witness: the amended theorem applied at a concrete configuration with
    encoder strategy `none`, one (task-free) client and singleton
    checkpoints. -/
theorem C4_witness :
    ((Hyperweight.mk Option.none Option.none Option.none Option.none).dec = Option.none) ∧
    (((runAggregate [⟨"d", [], ⟨[], []⟩⟩] [[("w", ⟨[1], [(7 : ℝ)]⟩)]]
        [[("w", ⟨[1], [(7 : ℝ)]⟩)]]
        ⟨Option.none, Option.none, Option.none, Option.none⟩ EncoderAgg.none
        DecoderAgg.cross_attention 0).err.isSome = true) ∧
      ((runAggregate [⟨"d", [], ⟨[], []⟩⟩] [[("w", ⟨[1], [(7 : ℝ)]⟩)]]
          [[("w", ⟨[1], [(7 : ℝ)]⟩)]]
          ⟨Option.none, Option.none, Option.none, Option.none⟩ EncoderAgg.none
          DecoderAgg.cross_attention 0).state.models
        = [⟨"d", [], ⟨[], []⟩⟩].map FederatedClient.model) ∧
      ((runAggregate [⟨"d", [], ⟨[], []⟩⟩] [[("w", ⟨[1], [(7 : ℝ)]⟩)]]
          [[("w", ⟨[1], [(7 : ℝ)]⟩)]]
          ⟨Option.none, Option.none, Option.none, Option.none⟩ EncoderAgg.none
          DecoderAgg.cross_attention 0).state.decCache
        = (Hyperweight.mk Option.none Option.none Option.none Option.none).decCache) ∧
      (EncoderAgg.none = EncoderAgg.none →
        ¬ (([[("w", (⟨[1], [(7 : ℝ)]⟩ : Tensor))]] : List WeightMap).length = 0 ∨
            ([[("w", (⟨[1], [(7 : ℝ)]⟩ : Tensor))]] : List WeightMap).length <
              ([⟨"d", [], ⟨[], []⟩⟩] : List FederatedClient).length ∨
            ([[("w", (⟨[1], [(7 : ℝ)]⟩ : Tensor))]] : List WeightMap).length <
              ([⟨"d", [], ⟨[], []⟩⟩] : List FederatedClient).length) →
        (runAggregate [⟨"d", [], ⟨[], []⟩⟩] [[("w", ⟨[1], [(7 : ℝ)]⟩)]]
            [[("w", ⟨[1], [(7 : ℝ)]⟩)]]
            ⟨Option.none, Option.none, Option.none, Option.none⟩ EncoderAgg.none
            DecoderAgg.cross_attention 0).err = some AggError.unsupportedStrategy ∧
        (runAggregate [⟨"d", [], ⟨[], []⟩⟩] [[("w", ⟨[1], [(7 : ℝ)]⟩)]]
            [[("w", ⟨[1], [(7 : ℝ)]⟩)]]
            ⟨Option.none, Option.none, Option.none, Option.none⟩ EncoderAgg.none
            DecoderAgg.cross_attention 0).state.staged = [[("w", ⟨[1], [(7 : ℝ)]⟩)]] ∧
        (runAggregate [⟨"d", [], ⟨[], []⟩⟩] [[("w", ⟨[1], [(7 : ℝ)]⟩)]]
            [[("w", ⟨[1], [(7 : ℝ)]⟩)]]
            ⟨Option.none, Option.none, Option.none, Option.none⟩ EncoderAgg.none
            DecoderAgg.cross_attention 0).state.encCache
          = (Hyperweight.mk Option.none Option.none Option.none Option.none).encCache)) :=
  ⟨rfl, C4_unsupported_strategy _ _ _ _ _ _ rfl⟩

/-! ### Claim C5 -/

/-- C5 (amended).  Every error-free `aggregate` call — except the decoder
    `fedavg` early return when there are zero decoder blocks, which reloads
    nothing — reloads every client's live model by canonical parameter name
    from that client's aggregated staged checkpoint; a model weight whose
    canonical name is absent from the staged checkpoint keeps its current
    value (partial, additive update, never a full replace). -/
theorem C5_models_reload (clients : List FederatedClient)
    (saveCkpt lastCkpt : List WeightMap) (hw : Hyperweight)
    (encoderAgg : EncoderAgg) (decoderAgg : DecoderAgg) (caC : ℝ)
    (hok : (runAggregate clients saveCkpt lastCkpt hw encoderAgg decoderAgg caC).err
      = Option.none)
    (hne : ¬ (decoderAgg = DecoderAgg.fedavg ∧ blocksOf clients = [])) :
    ((runAggregate clients saveCkpt lastCkpt hw encoderAgg decoderAgg caC).state.models =
      List.zipWith (fun c u => loadCheckpoint c.model u) clients
        (runAggregate clients saveCkpt lastCkpt hw encoderAgg decoderAgg caC).state.staged) ∧
    (∀ (mdl : LiveModel) (ck : WeightMap) (j : ℕ)
        (hj : j < (List.zip mdl.names mdl.vals).length),
      (loadCheckpoint mdl ck).vals.getD j ⟨[], []⟩ =
        (match List.lookup (canonicalKey ((List.zip mdl.names mdl.vals).get ⟨j, hj⟩).1) ck with
         | some t => t
         | Option.none => ((List.zip mdl.names mdl.vals).get ⟨j, hj⟩).2)) := by
  refine ⟨?_, fun mdl ck j hj => loadCheckpoint_getD mdl ck j hj⟩
  unfold runAggregate at hok ⊢
  by_cases hg : saveCkpt.length = 0 ∨ saveCkpt.length < clients.length ∨
      lastCkpt.length < clients.length
  · rw [if_pos hg] at hok
    exact absurd hok (by simp)
  · rw [if_neg hg] at hok ⊢
    cases h : encSection clients saveCkpt lastCkpt hw encoderAgg caC saveCkpt with
    | none => rw [h] at hok; exact absurd hok (by simp)
    | some p =>
      obtain ⟨staged1, encCache1⟩ := p
      rw [h] at hok
      cases decoderAgg with
      | none => rfl
      | fedavg =>
        cases hb : blocksOf clients with
        | nil => exact absurd ⟨rfl, hb⟩ hne
        | cons b0 rest =>
          rw [hb] at hok
          simp only [] at hok ⊢
          cases h2 : decFedavgStaged clients saveCkpt b0 staged1 with
          | none => rw [h2] at hok; exact absurd hok (by simp)
          | some staged2 => rfl
      | cross_attention =>
        cases hd : hw.dec with
        | none => rw [hd] at hok; exact absurd hok (by simp)
        | some pol => rfl

/-- C5 counterexample: one client with no enabled tasks and decoder strategy
    `fedavg`.  The call returns without error but skips the reload: the live
    model keeps `w = 5` although its staged checkpoint holds `w = 7`. -/
theorem C5_counterexample :
    ((runAggregate [⟨"d", [], ⟨["w"], [⟨[1], [(5 : ℝ)]⟩]⟩⟩]
        [[("w", ⟨[1], [(7 : ℝ)]⟩)]] [[("w", ⟨[1], [(7 : ℝ)]⟩)]]
        ⟨Option.none, Option.none, Option.none, Option.none⟩
        EncoderAgg.none DecoderAgg.fedavg 0).err = Option.none) ∧
    ((runAggregate [⟨"d", [], ⟨["w"], [⟨[1], [(5 : ℝ)]⟩]⟩⟩]
        [[("w", ⟨[1], [(7 : ℝ)]⟩)]] [[("w", ⟨[1], [(7 : ℝ)]⟩)]]
        ⟨Option.none, Option.none, Option.none, Option.none⟩
        EncoderAgg.none DecoderAgg.fedavg 0).state.models ≠
      List.zipWith (fun (c : FederatedClient) (u : WeightMap) => loadCheckpoint c.model u)
        [⟨"d", [], ⟨["w"], [⟨[1], [(5 : ℝ)]⟩]⟩⟩]
        (runAggregate [⟨"d", [], ⟨["w"], [⟨[1], [(5 : ℝ)]⟩]⟩⟩]
          [[("w", ⟨[1], [(7 : ℝ)]⟩)]] [[("w", ⟨[1], [(7 : ℝ)]⟩)]]
          ⟨Option.none, Option.none, Option.none, Option.none⟩
          EncoderAgg.none DecoderAgg.fedavg 0).state.staged) := by
  have hrun : runAggregate [⟨"d", [], ⟨["w"], [⟨[1], [(5 : ℝ)]⟩]⟩⟩]
      [[("w", ⟨[1], [(7 : ℝ)]⟩)]] [[("w", ⟨[1], [(7 : ℝ)]⟩)]]
      ⟨Option.none, Option.none, Option.none, Option.none⟩
      EncoderAgg.none DecoderAgg.fedavg 0 =
      ⟨⟨[⟨["w"], [⟨[1], [(5 : ℝ)]⟩]⟩], [[("w", ⟨[1], [(7 : ℝ)]⟩)]],
        Option.none, Option.none⟩, Option.none⟩ := by
    unfold runAggregate
    rw [if_neg (by norm_num)]
    rfl
  rw [hrun]
  refine ⟨rfl, ?_⟩
  have hck : canonicalKey "w" = "w" := by decide
  have hload : List.zipWith (fun (c : FederatedClient) (u : WeightMap) => loadCheckpoint c.model u)
      [⟨"d", [], ⟨["w"], [⟨[1], [(5 : ℝ)]⟩]⟩⟩] [[("w", ⟨[1], [(7 : ℝ)]⟩)]] =
      [⟨["w"], [⟨[1], [(7 : ℝ)]⟩]⟩] := by
    simp only [List.zipWith_cons_cons, List.zipWith_nil_right, loadCheckpoint, hck]
    rw [show List.lookup "w" [("w", (⟨[1], [(7 : ℝ)]⟩ : Tensor))] =
      some ⟨[1], [(7 : ℝ)]⟩ from rfl]
    rfl
  intro h
  rw [hload] at h
  simp only [List.cons.injEq, LiveModel.mk.injEq, Tensor.mk.injEq, and_true, true_and] at h
  norm_num at h

/-- C5 witness: the amended theorem applied at a one-client success
    configuration (decoder strategy `none`), where the model's weight is
    reloaded from the staged checkpoint. -/
theorem C5_witness :
    ((runAggregate [⟨"d", [], ⟨["w"], [⟨[1], [(5 : ℝ)]⟩]⟩⟩]
        [[("w", ⟨[1], [(7 : ℝ)]⟩)]] [[("w", ⟨[1], [(7 : ℝ)]⟩)]]
        ⟨Option.none, Option.none, Option.none, Option.none⟩
        EncoderAgg.none DecoderAgg.none 0).err = Option.none) ∧
    ((runAggregate [⟨"d", [], ⟨["w"], [⟨[1], [(5 : ℝ)]⟩]⟩⟩]
        [[("w", ⟨[1], [(7 : ℝ)]⟩)]] [[("w", ⟨[1], [(7 : ℝ)]⟩)]]
        ⟨Option.none, Option.none, Option.none, Option.none⟩
        EncoderAgg.none DecoderAgg.none 0).state.models =
      List.zipWith (fun (c : FederatedClient) (u : WeightMap) => loadCheckpoint c.model u)
        [⟨"d", [], ⟨["w"], [⟨[1], [(5 : ℝ)]⟩]⟩⟩]
        (runAggregate [⟨"d", [], ⟨["w"], [⟨[1], [(5 : ℝ)]⟩]⟩⟩]
          [[("w", ⟨[1], [(7 : ℝ)]⟩)]] [[("w", ⟨[1], [(7 : ℝ)]⟩)]]
          ⟨Option.none, Option.none, Option.none, Option.none⟩
          EncoderAgg.none DecoderAgg.none 0).state.staged) :=
  ⟨by unfold runAggregate; rw [if_neg (by norm_num)]; rfl,
    (C5_models_reload _ _ _ _ _ _ _
      (by unfold runAggregate; rw [if_neg (by norm_num)]; rfl)
      (by decide)).1⟩

/-! ### Claim C6 -/

lemma lookup_wmSet (m : WeightMap) (k : String) (v : Tensor) (q : String) :
    List.lookup q (wmSet m k v) = if q = k then some v else List.lookup q m := by
  induction m with
  | nil =>
    by_cases h : q = k
    · subst h; simp [wmSet, List.lookup]
    · simp [wmSet, List.lookup, beq_eq_false_iff_ne.mpr h, h]
  | cons p rest ih =>
    obtain ⟨k', v'⟩ := p
    by_cases h1 : k' = k
    · subst h1
      by_cases h2 : q = k'
      · subst h2; simp [wmSet, List.lookup]
      · simp [wmSet, List.lookup, beq_eq_false_iff_ne.mpr h2, h2]
    · by_cases h2 : q = k'
      · subst h2
        simp [wmSet, h1, List.lookup]
      · simp [wmSet, h1, List.lookup, beq_eq_false_iff_ne.mpr h2, h2, ih]

lemma unflattenAux_lookup_of_not_mem :
    ∀ (keys : List String) (shapes : List (List ℕ)) (vec : List ℝ) (acc : WeightMap)
      (q : String), q ∉ keys →
      List.lookup q (unflattenAux vec keys shapes acc) = List.lookup q acc := by
  intro keys
  induction keys with
  | nil => intro shapes vec acc q _; cases shapes <;> rfl
  | cons k ks ih =>
    intro shapes vec acc q hq
    cases shapes with
    | nil => rfl
    | cons s ss =>
      rw [unflattenAux, ih ss _ _ q (fun h => hq (List.mem_cons_of_mem _ h)),
        lookup_wmSet, if_neg (fun h => hq (by rw [h]; exact List.mem_cons_self _ _))]

lemma flatten_exists (m : WeightMap) :
    ∀ (keys : List String) (shapes : List (List ℕ)),
      List.Forall₂ (keyShapeOk m) keys shapes → ∃ flat, flatten m keys = some flat := by
  intro keys shapes hf
  induction hf with
  | nil => exact ⟨[], rfl⟩
  | @cons k s ks ss hks _ ih =>
    obtain ⟨t, hlk, _, _⟩ := hks
    obtain ⟨rest, hrest⟩ := ih
    exact ⟨t.data ++ rest, by rw [flatten, hlk, hrest]⟩

lemma unflattenAux_lookup_mem (m : WeightMap) :
    ∀ (keys : List String) (shapes : List (List ℕ)),
      List.Forall₂ (keyShapeOk m) keys shapes →
      ∀ flat, flatten m keys = some flat →
      ∀ (acc : WeightMap) (q : String), q ∈ keys →
        List.lookup q (unflattenAux flat keys shapes acc) = List.lookup q m := by
  intro keys shapes hf
  induction hf with
  | nil => intro flat _ acc q hq; cases hq
  | @cons k s ks ss hks _ ih =>
    intro flat hflat acc q hq
    obtain ⟨t, hlk, hsh, hlen⟩ := hks
    rw [flatten, hlk] at hflat
    cases hrec : flatten m ks with
    | none => rw [hrec] at hflat; simp at hflat
    | some rest =>
      rw [hrec] at hflat
      simp only [Option.some.injEq] at hflat
      subst hflat
      rw [unflattenAux]
      have hdrop : (t.data ++ rest).drop s.prod = rest := by
        rw [← hlen]; exact List.drop_left _ _
      have htake : (t.data ++ rest).take s.prod = t.data := by
        rw [← hlen]; exact List.take_left _ _
      rw [hdrop, htake]
      rcases List.mem_cons.mp hq with rfl | hq'
      · by_cases hqks : q ∈ ks
        · exact ih rest hrec _ q hqks
        · rw [unflattenAux_lookup_of_not_mem ks ss rest _ q hqks, lookup_wmSet, if_pos rfl,
            hlk]
          cases t
          cases hsh
          rfl
      · exact ih rest hrec _ q hq'

/-- C6 (confirmed).  For every WeightMap `m`, key list `keys` (in any order,
    duplicates allowed) whose keys all occur in `m` with well-formed tensors,
    and matching shape list `shapes`, flattening succeeds and
    `unflatten (flatten m keys) keys shapes` agrees with `m` on every key of
    `keys`: flatten and unflatten are exact inverses for a fixed key order. -/
theorem C6_flatten_unflatten_roundTrip (m : WeightMap) (keys : List String)
    (shapes : List (List ℕ)) (h : List.Forall₂ (keyShapeOk m) keys shapes) :
    ∃ flat, flatten m keys = some flat ∧
      ∀ q ∈ keys, List.lookup q (unflatten flat keys shapes) = List.lookup q m := by
  obtain ⟨flat, hflat⟩ := flatten_exists m keys shapes h
  exact ⟨flat, hflat,
    fun q hq => unflattenAux_lookup_mem m keys shapes h flat hflat [] q hq⟩

/-- C6 witness: the round trip at a concrete two-tensor map with keys listed
    in the order opposite to the map's own order. -/
theorem C6_witness :
    List.Forall₂
      (keyShapeOk [("a", ⟨[2], [(1 : ℝ), 2]⟩), ("b", ⟨[1], [(3 : ℝ)]⟩)])
      ["b", "a"] [[1], [2]] ∧
    (∃ flat,
      flatten [("a", ⟨[2], [(1 : ℝ), 2]⟩), ("b", ⟨[1], [(3 : ℝ)]⟩)] ["b", "a"] = some flat ∧
      ∀ q ∈ ["b", "a"],
        List.lookup q (unflatten flat ["b", "a"] [[1], [2]]) =
          List.lookup q [("a", ⟨[2], [(1 : ℝ), 2]⟩), ("b", ⟨[1], [(3 : ℝ)]⟩)]) := by
  have h : List.Forall₂
      (keyShapeOk [("a", ⟨[2], [(1 : ℝ), 2]⟩), ("b", ⟨[1], [(3 : ℝ)]⟩)])
      ["b", "a"] [[1], [2]] := by
    refine List.Forall₂.cons ⟨⟨[1], [(3 : ℝ)]⟩, rfl, rfl, rfl⟩ ?_
    exact List.Forall₂.cons ⟨⟨[2], [(1 : ℝ), 2]⟩, rfl, rfl, rfl⟩ List.Forall₂.nil
  exact ⟨h, C6_flatten_unflatten_roundTrip _ _ _ h⟩

/-! ### Claim C7 -/

lemma taskChars_ne_nil : ∀ t : TaskName, TaskName.chars t ≠ [] := by decide

lemma taskChars_no_bar : ∀ t : TaskName, '|' ∉ TaskName.chars t := by decide

lemma taskChars_inj : ∀ a b : TaskName, TaskName.chars a = TaskName.chars b → a = b := by
  decide

lemma map_taskChars_inj :
    ∀ (l1 l2 : List TaskName), l1.map TaskName.chars = l2.map TaskName.chars → l1 = l2 := by
  intro l1
  induction l1 with
  | nil => intro l2 h; cases l2 <;> simp_all
  | cons x xs ih =>
    intro l2 h
    cases l2 with
    | nil => simp at h
    | cons y ys =>
      simp only [List.map_cons, List.cons.injEq] at h
      rw [taskChars_inj x y h.1, ih ys h.2]

/-- The `"|"`-join comparison of task lists is as sharp as comparing the task
    lists themselves: task names are nonempty and contain no separator. -/
lemma intercalate_chars_inj (l1 l2 : List TaskName)
    (h : List.intercalate ['|'] (l1.map TaskName.chars) =
         List.intercalate ['|'] (l2.map TaskName.chars)) : l1 = l2 := by
  have hbar : ∀ (l : List TaskName) (c : List Char), c ∈ l.map TaskName.chars →
      '|' ∉ c := by
    intro l c hc
    obtain ⟨t, _, rfl⟩ := List.mem_map.mp hc
    exact taskChars_no_bar t
  cases l1 with
  | nil =>
    cases l2 with
    | nil => rfl
    | cons y ys =>
      exfalso
      have hs := List.splitOn_intercalate ((y :: ys).map TaskName.chars) '|'
        (hbar (y :: ys)) (by simp)
      rw [← h] at hs
      simp [List.intercalate] at hs
      exact taskChars_ne_nil y hs.1
  | cons x xs =>
    cases l2 with
    | nil =>
      exfalso
      have hs := List.splitOn_intercalate ((x :: xs).map TaskName.chars) '|'
        (hbar (x :: xs)) (by simp)
      rw [h] at hs
      simp [List.intercalate] at hs
      exact taskChars_ne_nil x hs.1
    | cons y ys =>
      have hs1 := List.splitOn_intercalate ((x :: xs).map TaskName.chars) '|'
        (hbar (x :: xs)) (by simp)
      have hs2 := List.splitOn_intercalate ((y :: ys).map TaskName.chars) '|'
        (hbar (y :: ys)) (by simp)
      rw [h] at hs1
      exact map_taskChars_inj _ _ (hs1.symm.trans hs2)

lemma homoAverage_nil (ds : List (List ℝ)) :
    homoAverageEncoderDeltasInPlace ds [] = ds := by
  rw [homoAverageEncoderDeltasInPlace]

lemma homoAverage_cons (ds : List (List ℝ)) (c : Client) (cs : List Client) :
    homoAverageEncoderDeltasInPlace ds (c :: cs) =
      List.replicate (1 + runLen c cs)
        (scale (1 / ((1 + runLen c cs : ℕ) : ℝ)) (sumVecs (ds.take (1 + runLen c cs)))) ++
      homoAverageEncoderDeltasInPlace (ds.drop (1 + runLen c cs)) (cs.drop (runLen c cs)) := by
  rw [homoAverageEncoderDeltasInPlace]

/-- C7 (confirmed).  For clients `[A, B, C]` where `A` and `B` share the same
    (dataset, ordered task list) signature and `C`'s differs, homogeneous
    averaging replaces the first two deltas by their mean and leaves `C`'s
    delta unchanged. -/
theorem C7_homoAverage (A B C : Client) (da db dc : List ℝ)
    (hsig : A.dataname = B.dataname ∧ A.tasks = B.tasks)
    (hdiff : ¬ (C.dataname = B.dataname ∧ C.tasks = B.tasks))
    (_hlen : db.length = da.length) :
    homoAverageEncoderDeltasInPlace [da, db, dc] [A, B, C] =
      [scale (1 / 2) (addVec da db), scale (1 / 2) (addVec da db), dc] := by
  have hBA : sameSigJoin B A :=
    ⟨hsig.1.symm, by rw [joinTasks, joinTasks, hsig.2]⟩
  have hCB : ¬ sameSigJoin C B :=
    fun hs => hdiff ⟨hs.1, intercalate_chars_inj _ _ hs.2⟩
  have hrun : runLen A [B, C] = 1 := by
    rw [runLen, if_pos hBA, runLen, if_neg hCB]
  rw [homoAverage_cons, hrun]
  norm_num
  rw [homoAverage_cons]
  rw [show runLen C ([] : List Client) = 0 from rfl]
  norm_num
  rw [homoAverage_nil]
  simp [sumVecs, scale, addVec]

/-- C7 witness: the theorem applied to concrete one-dimensional deltas, with
    `A` and `B` on dataset `"x"` with task `semseg`, and `C` on `"y"`. -/
theorem C7_witness :
    ((Client.mk "x" [TaskName.semseg]).dataname = (Client.mk "x" [TaskName.semseg]).dataname ∧
      (Client.mk "x" [TaskName.semseg]).tasks = (Client.mk "x" [TaskName.semseg]).tasks) ∧
    (¬ ((Client.mk "y" [TaskName.semseg]).dataname = (Client.mk "x" [TaskName.semseg]).dataname ∧
      (Client.mk "y" [TaskName.semseg]).tasks = (Client.mk "x" [TaskName.semseg]).tasks)) ∧
    homoAverageEncoderDeltasInPlace [[(1 : ℝ)], [(3 : ℝ)], [(5 : ℝ)]]
        [Client.mk "x" [TaskName.semseg], Client.mk "x" [TaskName.semseg],
          Client.mk "y" [TaskName.semseg]] =
      [scale (1 / 2) (addVec [(1 : ℝ)] [(3 : ℝ)]), scale (1 / 2) (addVec [(1 : ℝ)] [(3 : ℝ)]),
        [(5 : ℝ)]] :=
  ⟨⟨rfl, rfl⟩, by decide,
    C7_homoAverage _ _ _ _ _ _ ⟨rfl, rfl⟩ (by decide) rfl⟩

/-! ### Claim C8 -/

/-- C8 (confirmed).  For fewer than 2 clients the diagnostics return the
    defined degenerate record (zero divergence, cosine 1) without touching
    either checkpoint list, hence without any possibility of error. -/
theorem C8_diagnostics_degenerate (clients : List Client)
    (saveCkpt lastCkpt : List WeightMap) (h : clients.length < 2) :
    computeInterClientDiagnostics clients saveCkpt lastCkpt =
      some ⟨0, 0, 0, 1, 0⟩ := by
  unfold computeInterClientDiagnostics
  rw [if_pos h]

/-- C8 witness: zero clients and empty checkpoint lists. -/
theorem C8_witness :
    ([] : List Client).length < 2 ∧
    computeInterClientDiagnostics [] [] [] = some ⟨0, 0, 0, 1, 0⟩ :=
  ⟨by decide, C8_diagnostics_degenerate [] [] [] (by decide)⟩

/-! ### Claim C9 -/

lemma stripNumSuffix_of_not_hasNumSuffix (l : List Char) (h : hasNumSuffix l = false) :
    stripNumSuffix l = l := by
  unfold stripNumSuffix
  rw [h]
  simp

/-- C9 (amended).  `canonicalKey` is idempotent on every key whose stripped
    form does not itself end in an `_digits` suffix.  On a key carrying two
    stacked suffixes (e.g. `"a_1_2"`) the two applications strip different
    suffixes, so unrestricted idempotence fails; see the counterexample. -/
theorem C9_canonicalKey_idempotent (k : String)
    (h : hasNumSuffix ((canonicalKey k).data) = false) :
    canonicalKey (canonicalKey k) = canonicalKey k := by
  show String.mk (stripNumSuffix ((canonicalKey k).data)) = canonicalKey k
  rw [stripNumSuffix_of_not_hasNumSuffix _ h]

/-- C9 counterexample: `canonicalKey "a_1_2" = "a_1"` but
    `canonicalKey "a_1" = "a"`, so idempotence fails at the key `"a_1_2"`. -/
theorem C9_counterexample :
    canonicalKey (canonicalKey "a_1_2") ≠ canonicalKey "a_1_2" := by decide

/-- C9 witness: the amended theorem applied at a realistic weight name whose
    canonical form `"encoder_stage0/kernel"` carries no numeric suffix. -/
theorem C9_witness :
    hasNumSuffix ((canonicalKey "encoder_stage0/kernel_1").data) = false ∧
    canonicalKey (canonicalKey "encoder_stage0/kernel_1") =
      canonicalKey "encoder_stage0/kernel_1" :=
  ⟨by decide, C9_canonicalKey_idempotent "encoder_stage0/kernel_1" (by decide)⟩

end FedAgg
